import Mathlib

set_option maxRecDepth 10000
set_option maxHeartbeats 1000000
set_option linter.unnecessarySeqFocus false

/-!
Verification of the DocDB seek/iteration engine of this repository.

The seek algorithms (`SeekToValidKvAtTs`, `PerformRocksDBSeek`, `SeekForward`)
are embedded from `yb/docdb/docdb_rocksdb_util.cc`; the plain block binary
search (`SeekAtOrAfterValue`) from `yb/cfile/plain_block.h`.  The key/timestamp
codec (`KeyBytes`, `DocHybridTime`, `SubDocKey`) is not part of the provided
sources, so it is modelled from the spec (sections 3 and 4.1/4.2): an
order-preserving concatenated encoding with a monotonic-reversing fixed-width
timestamp transform.  Byte strings are modelled as `List Nat` with the
rocksdb `Slice::compare` ordering (memcmp order, a strict prefix sorts first).
-/

/-- Three-way comparison of natural numbers (used for single bytes and for
numeric fields). -/
def natCmp (a b : Nat) : Ordering :=
  if a < b then .lt else if b < a then .gt else .eq

/-- Byte-string comparison with the semantics of rocksdb `Slice::compare`:
compare positionwise, and if one string is a strict prefix of the other the
shorter one sorts first. -/
def cmpBytes : List Nat → List Nat → Ordering
  | [], [] => .eq
  | [], _ :: _ => .lt
  | _ :: _, [] => .gt
  | a :: as, b :: bs => (natCmp a b).then (cmpBytes as bs)

theorem natCmp_self (a : Nat) : natCmp a a = .eq := by
  simp [natCmp]

theorem natCmp_eq_lt {a b : Nat} : natCmp a b = .lt ↔ a < b := by
  unfold natCmp
  split
  · simp [*]
  · split <;> simp <;> omega

theorem natCmp_eq_gt {a b : Nat} : natCmp a b = .gt ↔ b < a := by
  unfold natCmp
  split
  · simp <;> omega
  · split <;> simp <;> omega

theorem natCmp_eq_eq {a b : Nat} : natCmp a b = .eq ↔ a = b := by
  unfold natCmp
  split
  · simp <;> omega
  · split <;> simp <;> omega

theorem then_eq_lt_iff (a b : Ordering) :
    a.then b = .lt ↔ a = .lt ∨ (a = .eq ∧ b = .lt) := by
  cases a <;> simp [Ordering.then]

theorem then_eq_gt_iff (a b : Ordering) :
    a.then b = .gt ↔ a = .gt ∨ (a = .eq ∧ b = .gt) := by
  cases a <;> simp [Ordering.then]

theorem then_eq_eq_iff (a b : Ordering) :
    a.then b = .eq ↔ a = .eq ∧ b = .eq := by
  cases a <;> simp [Ordering.then]

theorem then_eq_ord (a : Ordering) : a.then .eq = a := by
  cases a <;> rfl

theorem eq_then_ord (b : Ordering) : Ordering.eq.then b = b := rfl

theorem cmpBytes_refl (l : List Nat) : cmpBytes l l = .eq := by
  induction l with
  | nil => rfl
  | cons a as ih => simp [cmpBytes, natCmp_self, Ordering.then, ih]

theorem cmpBytes_eq_iff {a b : List Nat} : cmpBytes a b = .eq ↔ a = b := by
  induction a generalizing b with
  | nil => cases b <;> simp [cmpBytes]
  | cons x xs ih =>
    cases b with
    | nil => simp [cmpBytes]
    | cons y ys => simp [cmpBytes, then_eq_eq_iff, natCmp_eq_eq, ih]

theorem cmpBytes_lt_gt {a b : List Nat} :
    cmpBytes a b = .lt ↔ cmpBytes b a = .gt := by
  induction a generalizing b with
  | nil => cases b <;> simp [cmpBytes]
  | cons x xs ih =>
    cases b with
    | nil => simp [cmpBytes]
    | cons y ys =>
      simp only [cmpBytes, then_eq_lt_iff, then_eq_gt_iff, natCmp_eq_lt,
        natCmp_eq_gt, natCmp_eq_eq]
      constructor
      · rintro (h | ⟨rfl, h⟩)
        · left; exact h
        · right; exact ⟨rfl, ih.1 h⟩
      · rintro (h | ⟨rfl, h⟩)
        · left; exact h
        · right; exact ⟨rfl, ih.2 h⟩

theorem cmpBytes_lt_trans {a b c : List Nat}
    (h1 : cmpBytes a b = .lt) (h2 : cmpBytes b c = .lt) :
    cmpBytes a c = .lt := by
  induction a generalizing b c with
  | nil =>
    cases c with
    | nil =>
      cases b with
      | nil => simpa using h1
      | cons y ys => simp [cmpBytes] at h2
    | cons z zs => simp [cmpBytes]
  | cons x xs ih =>
    cases b with
    | nil => simp [cmpBytes] at h1
    | cons y ys =>
      cases c with
      | nil => simp [cmpBytes] at h2
      | cons z zs =>
        simp only [cmpBytes, then_eq_lt_iff, natCmp_eq_lt, natCmp_eq_eq] at *
        rcases h1 with h1 | ⟨rfl, h1⟩ <;> rcases h2 with h2 | ⟨h2a, h2⟩
        · left; omega
        · left; omega
        · left; omega
        · right; exact ⟨h2a, ih h1 h2⟩

theorem then_assoc_ord (a b c : Ordering) :
    (a.then b).then c = a.then (b.then c) := by
  cases a <;> rfl

theorem cmpBytes_append_congr {as bs : List Nat} (h : as.length = bs.length)
    (xs ys : List Nat) :
    cmpBytes (as ++ xs) (bs ++ ys) = (cmpBytes as bs).then (cmpBytes xs ys) := by
  induction as generalizing bs with
  | nil =>
    cases bs with
    | nil => simp [cmpBytes, Ordering.then]
    | cons _ _ => simp at h
  | cons a as ih =>
    cases bs with
    | nil => simp at h
    | cons b bs =>
      simp only [List.cons_append, cmpBytes, List.append_eq]
      rw [ih (by simpa using h), then_assoc_ord]

theorem cmpBytes_append_left (p xs ys : List Nat) :
    cmpBytes (p ++ xs) (p ++ ys) = cmpBytes xs ys := by
  rw [cmpBytes_append_congr rfl, cmpBytes_refl, eq_then_ord]

/-- Fixed-width big-endian base-256 encoding of a natural number
(`n` bytes, most significant first). -/
def fixedBE : Nat → Nat → List Nat
  | 0, _ => []
  | n + 1, v => fixedBE n (v / 256) ++ [v % 256]

/-- Big-endian base-256 value of a byte string. -/
def fromBE (l : List Nat) : Nat := l.foldl (fun a b => a * 256 + b) 0

theorem fixedBE_length (n v : Nat) : (fixedBE n v).length = n := by
  induction n generalizing v with
  | zero => rfl
  | succ n ih => simp [fixedBE, ih]

theorem natCmp_divmod (a b : Nat) :
    (natCmp (a / 256) (b / 256)).then (natCmp (a % 256) (b % 256)) = natCmp a b := by
  unfold natCmp
  by_cases h1 : a / 256 < b / 256
  · have hab : a < b := by omega
    simp [h1, hab, Ordering.then]
  · by_cases h2 : b / 256 < a / 256
    · have hab : b < a := by omega
      have hab2 : ¬ a < b := by omega
      simp [h1, h2, hab, hab2, Ordering.then]
    · by_cases h3 : a % 256 < b % 256
      · have hab : a < b := by omega
        simp [h1, h2, h3, hab, Ordering.then]
      · by_cases h4 : b % 256 < a % 256
        · have hab : b < a := by omega
          have hab2 : ¬ a < b := by omega
          simp [h1, h2, h3, h4, hab, hab2, Ordering.then]
        · have hab : ¬ a < b := by omega
          have hab2 : ¬ b < a := by omega
          simp [h1, h2, h3, h4, hab, hab2, Ordering.then]

theorem cmpBytes_fixedBE {n a b : Nat} (ha : a < 256 ^ n) (hb : b < 256 ^ n) :
    cmpBytes (fixedBE n a) (fixedBE n b) = natCmp a b := by
  induction n generalizing a b with
  | zero =>
    simp only [Nat.pow_zero] at ha hb
    have ha0 : a = 0 := by omega
    have hb0 : b = 0 := by omega
    subst ha0; subst hb0
    simp [fixedBE, cmpBytes, natCmp_self]
  | succ n ih =>
    rw [Nat.pow_succ] at ha hb
    rw [fixedBE, fixedBE,
      cmpBytes_append_congr (by rw [fixedBE_length, fixedBE_length]),
      ih ((Nat.div_lt_iff_lt_mul (by norm_num)).2 ha)
        ((Nat.div_lt_iff_lt_mul (by norm_num)).2 hb)]
    have : cmpBytes [a % 256] [b % 256] = natCmp (a % 256) (b % 256) := by
      simp [cmpBytes, then_eq_ord]
    rw [this, natCmp_divmod]

theorem fromBE_append_single (l : List Nat) (b : Nat) :
    fromBE (l ++ [b]) = fromBE l * 256 + b := by
  simp [fromBE, List.foldl_append]

theorem fromBE_fixedBE {n v : Nat} (h : v < 256 ^ n) : fromBE (fixedBE n v) = v := by
  induction n generalizing v with
  | zero =>
    simp only [Nat.pow_zero] at h
    have : v = 0 := by omega
    subst this
    rfl
  | succ n ih =>
    rw [Nat.pow_succ] at h
    rw [fixedBE, fromBE_append_single,
      ih ((Nat.div_lt_iff_lt_mul (by norm_num)).2 h)]
    omega

theorem fixedBE_fromBE (l : List Nat) (h : ∀ x ∈ l, x < 256) :
    fixedBE l.length (fromBE l) = l := by
  induction l using List.reverseRecOn with
  | nil => rfl
  | append_singleton xs b ih =>
    have hb : b < 256 := h b (by simp)
    rw [fromBE_append_single]
    simp only [List.length_append, List.length_cons, List.length_nil]
    rw [fixedBE]
    have h1 : (fromBE xs * 256 + b) / 256 = fromBE xs := by omega
    have h2 : (fromBE xs * 256 + b) % 256 = b := by omega
    rw [h1, h2, ih (fun x hx => h x (by simp [hx]))]

theorem fixedBE_mem_lt (n v : Nat) : ∀ x ∈ fixedBE n v, x < 256 := by
  induction n generalizing v with
  | zero => simp [fixedBE]
  | succ n ih =>
    intro x hx
    rw [fixedBE] at hx
    rcases List.mem_append.1 hx with h | h
    · exact ih _ x h
    · simp at h; omega

theorem fromBE_lt (l : List Nat) (h : ∀ x ∈ l, x < 256) :
    fromBE l < 256 ^ l.length := by
  induction l using List.reverseRecOn with
  | nil => simp [fromBE]
  | append_singleton xs b ih =>
    have hb : b < 256 := h b (by simp)
    rw [fromBE_append_single]
    simp only [List.length_append, List.length_cons, List.length_nil, Nat.pow_succ]
    have := ih (fun x hx => h x (by simp [hx]))
    calc fromBE xs * 256 + b < (fromBE xs + 1) * 256 := by omega
    _ ≤ 256 ^ xs.length * 256 := by
        have : fromBE xs + 1 ≤ 256 ^ xs.length := this
        exact Nat.mul_le_mul_right 256 this

/-! ### DocHybridTime and SubDocKey codec

Modelled from the spec: the codec sources (`doc_hybrid_time.cc`, `doc_key.cc`,
`key_bytes.h`) are not among the provided files; only their callers are.
Spec section 3: `DocHybridTime` is `(physical time, write_id)`, ordered
primarily by time, secondarily by write id, encoded with a fixed-width
monotonic-reversing byte transform so that larger timestamps sort as smaller
byte strings.  A `SubDocKey` is `(DocKey, sub-path components, optional
DocHybridTime)`, encoded so byte order equals (DocKey, path, reverse-time)
order: components are marker-prefixed fixed-width blocks, the DocKey part is
closed by a terminator byte, and the timestamp item uses a marker byte that
sorts before the component marker (so a key's versions come before its
children, and a bare prefix before both). -/

/-- Modelled from the spec: maximum possible write id (`kMaxWriteId`),
used when seeking "as of" a timestamp. -/
def kMaxWriteId : Nat := 2 ^ 32 - 1

/-- Modelled from the spec: composite logical timestamp
`(physical time, write_id)`. -/
structure DocHybridTime where
  physical : Nat
  writeId : Nat
deriving DecidableEq, Repr

/-- Modelled from the spec: the smallest possible `DocHybridTime` sentinel. -/
def DocHybridTime.kMin : DocHybridTime := ⟨0, 0⟩

/-- Well-formedness of a `DocHybridTime`: the fields fit their fixed widths
(64-bit physical time, 32-bit write id). -/
def DocHybridTime.WF (t : DocHybridTime) : Prop :=
  t.physical < 2 ^ 64 ∧ t.writeId < 2 ^ 32

/-- Modelled from the spec: fixed-width monotonic-reversing encoding of a
`DocHybridTime` (larger timestamps produce smaller byte strings). -/
def encDHT (t : DocHybridTime) : List Nat :=
  fixedBE 8 (2 ^ 64 - 1 - t.physical) ++ fixedBE 4 (2 ^ 32 - 1 - t.writeId)

/-- One item following the DocKey part of an encoded `SubDocKey`: either a
sub-path component or the trailing timestamp. -/
inductive KeyItem where
  | sub (c : Nat)
  | time (t : DocHybridTime)
deriving DecidableEq, Repr

/-- Modelled from the spec: item encoding.  The timestamp marker byte (0)
sorts before the component marker byte (1), so a key's timestamped versions
sort before the keys of its sub-documents. -/
def encItem : KeyItem → List Nat
  | .sub c => 1 :: fixedBE 4 c
  | .time t => 0 :: encDHT t

/-- Modelled from the spec: the hierarchical document key: table row key
(DocKey components), nested sub-document path, optional version timestamp. -/
structure SubDocKey where
  docKey : List Nat
  subKeys : List Nat
  docHt : Option DocHybridTime
deriving DecidableEq, Repr

/-- The item sequence following the DocKey part: sub-path components, then
the optional timestamp. -/
def SubDocKey.items (k : SubDocKey) : List KeyItem :=
  k.subKeys.map .sub ++ (match k.docHt with | none => [] | some t => [.time t])

/-- Modelled from the spec: DocKey component encoding, marker-prefixed
fixed-width blocks. -/
def encComps : List Nat → List Nat
  | [] => []
  | c :: cs => 1 :: (fixedBE 4 c ++ encComps cs)

/-- Item-sequence encoding. -/
def encItems : List KeyItem → List Nat
  | [] => []
  | i :: is => encItem i ++ encItems is

/-- Modelled from the spec: full `SubDocKey` encoding.  The DocKey part is
closed by a terminator byte (0) so that a DocKey that is a strict component
prefix of another sorts first. -/
def SubDocKey.encode (k : SubDocKey) : List Nat :=
  encComps k.docKey ++ 0 :: encItems k.items

/-- Well-formedness of a `SubDocKey`: every component and timestamp field
fits its fixed width. -/
def SubDocKey.WF (k : SubDocKey) : Prop :=
  (∀ c ∈ k.docKey, c < 2 ^ 32) ∧ (∀ c ∈ k.subKeys, c < 2 ^ 32) ∧
    (match k.docHt with | none => True | some t => t.WF)

/-- `DocHybridTime` order: primarily by physical time, secondarily by
write id. -/
def cmpDHT (a b : DocHybridTime) : Ordering :=
  (natCmp a.physical b.physical).then (natCmp a.writeId b.writeId)

/-- Item order: timestamps before components (a key's versions before its
children), timestamps in reverse time order, components in value order. -/
def cmpItem : KeyItem → KeyItem → Ordering
  | .time a, .time b => cmpDHT b a
  | .time _, .sub _ => .lt
  | .sub _, .time _ => .gt
  | .sub a, .sub b => natCmp a b

def cmpItems : List KeyItem → List KeyItem → Ordering
  | [], [] => .eq
  | [], _ :: _ => .lt
  | _ :: _, [] => .gt
  | a :: as, b :: bs => (cmpItem a b).then (cmpItems as bs)

def cmpComps : List Nat → List Nat → Ordering
  | [], [] => .eq
  | [], _ :: _ => .lt
  | _ :: _, [] => .gt
  | a :: as, b :: bs => (natCmp a b).then (cmpComps as bs)

/-- The abstract (DocKey, sub-path, reverse-DocHybridTime) order of the spec:
compare DocKeys first (a component-prefix sorts first), then the sub-path
items with most-recent versions first. -/
def cmpSubDocKey (a b : SubDocKey) : Ordering :=
  (cmpComps a.docKey b.docKey).then (cmpItems a.items b.items)

theorem natCmp_rev_sub {m a b : Nat} (ha : a ≤ m) (hb : b ≤ m) :
    natCmp (m - a) (m - b) = natCmp b a := by
  unfold natCmp
  by_cases h1 : m - a < m - b
  · have h2 : b < a := by omega
    simp [h1, h2]
  · by_cases h2 : m - b < m - a
    · have h3 : a < b := by omega
      have h4 : ¬ b < a := by omega
      simp [h1, h2, h3, h4]
    · have h3 : ¬ b < a := by omega
      have h4 : ¬ a < b := by omega
      simp [h1, h2, h3, h4]

theorem cmpBytes_encDHT {a b : DocHybridTime} (ha : a.WF) (hb : b.WF) :
    cmpBytes (encDHT a) (encDHT b) = cmpDHT b a := by
  obtain ⟨ha1, ha2⟩ := ha
  obtain ⟨hb1, hb2⟩ := hb
  unfold encDHT
  rw [cmpBytes_append_congr (by rw [fixedBE_length, fixedBE_length])]
  rw [cmpBytes_fixedBE (by norm_num; omega) (by norm_num; omega)]
  rw [cmpBytes_fixedBE (by norm_num; omega) (by norm_num; omega)]
  rw [natCmp_rev_sub (by omega) (by omega), natCmp_rev_sub (by omega) (by omega)]
  rfl

/-- Well-formedness of an item. -/
def KeyItem.WF : KeyItem → Prop
  | .sub c => c < 2 ^ 32
  | .time t => t.WF

theorem encItem_ne_nil (i : KeyItem) : encItem i ≠ [] := by
  cases i <;> simp [encItem]

theorem cmpBytes_cons (x y : Nat) (xs ys : List Nat) :
    cmpBytes (x :: xs) (y :: ys) = (natCmp x y).then (cmpBytes xs ys) := rfl

theorem cmpBytes_encItem {a b : KeyItem} (ha : a.WF) (hb : b.WF)
    (xs ys : List Nat) :
    cmpBytes (encItem a ++ xs) (encItem b ++ ys) =
      (cmpItem a b).then (cmpBytes xs ys) := by
  cases a with
  | sub ca =>
    cases b with
    | sub cb =>
      show cmpBytes (1 :: (fixedBE 4 ca ++ xs)) (1 :: (fixedBE 4 cb ++ ys)) = _
      rw [cmpBytes_cons, natCmp_self, eq_then_ord,
        cmpBytes_append_congr (by rw [fixedBE_length, fixedBE_length]),
        cmpBytes_fixedBE ha hb]
      rfl
    | time tb =>
      show cmpBytes (1 :: (fixedBE 4 ca ++ xs)) (0 :: (encDHT tb ++ ys)) = _
      rw [cmpBytes_cons, show natCmp 1 0 = .gt from rfl]
      rfl
  | time ta =>
    cases b with
    | sub cb =>
      show cmpBytes (0 :: (encDHT ta ++ xs)) (1 :: (fixedBE 4 cb ++ ys)) = _
      rw [cmpBytes_cons, show natCmp 0 1 = .lt from rfl]
      rfl
    | time tb =>
      show cmpBytes (0 :: (encDHT ta ++ xs)) (0 :: (encDHT tb ++ ys)) = _
      rw [cmpBytes_cons, natCmp_self, eq_then_ord,
        cmpBytes_append_congr (by simp [encDHT, fixedBE_length]),
        cmpBytes_encDHT ha hb]
      rfl

/-- Well-formedness of an item list. -/
def ItemsWF (l : List KeyItem) : Prop := ∀ i ∈ l, i.WF

theorem cmpBytes_nil_encItem (j : KeyItem) (l : List Nat) :
    cmpBytes [] (encItem j ++ l) = .lt := by
  cases j <;> rfl

theorem cmpBytes_encItem_nil (j : KeyItem) (l : List Nat) :
    cmpBytes (encItem j ++ l) [] = .gt := by
  cases j <;> rfl

theorem cmpBytes_encItems {a b : List KeyItem} (ha : ItemsWF a) (hb : ItemsWF b) :
    cmpBytes (encItems a) (encItems b) = cmpItems a b := by
  induction a generalizing b with
  | nil =>
    cases b with
    | nil => rfl
    | cons j js => exact cmpBytes_nil_encItem j (encItems js)
  | cons i is ih =>
    cases b with
    | nil => exact cmpBytes_encItem_nil i (encItems is)
    | cons j js =>
      show cmpBytes (encItem i ++ encItems is) (encItem j ++ encItems js) =
        (cmpItem i j).then (cmpItems is js)
      rw [cmpBytes_encItem (ha i (by simp)) (hb j (by simp)),
        ih (fun x hx => ha x (by simp [hx])) (fun x hx => hb x (by simp [hx]))]

theorem cmpBytes_encComps {a b : List Nat}
    (ha : ∀ c ∈ a, c < 2 ^ 32) (hb : ∀ c ∈ b, c < 2 ^ 32) (xs ys : List Nat) :
    cmpBytes (encComps a ++ 0 :: xs) (encComps b ++ 0 :: ys) =
      (cmpComps a b).then (cmpBytes xs ys) := by
  induction a generalizing b with
  | nil =>
    cases b with
    | nil =>
      show cmpBytes (0 :: xs) (0 :: ys) = (cmpComps ([] : List Nat) []).then _
      rw [cmpBytes_cons, natCmp_self]
      rfl
    | cons d ds =>
      show cmpBytes (0 :: xs)
          (1 :: ((fixedBE 4 d ++ encComps ds) ++ 0 :: ys)) = _
      rw [cmpBytes_cons, show natCmp 0 1 = .lt from rfl]
      rfl
  | cons c cs ih =>
    cases b with
    | nil =>
      show cmpBytes (1 :: ((fixedBE 4 c ++ encComps cs) ++ 0 :: xs))
          (0 :: ys) = _
      rw [cmpBytes_cons, show natCmp 1 0 = .gt from rfl]
      rfl
    | cons d ds =>
      show cmpBytes (1 :: ((fixedBE 4 c ++ encComps cs) ++ 0 :: xs))
          (1 :: ((fixedBE 4 d ++ encComps ds) ++ 0 :: ys)) = _
      rw [cmpBytes_cons, natCmp_self, eq_then_ord,
        List.append_assoc, List.append_assoc,
        cmpBytes_append_congr (by rw [fixedBE_length, fixedBE_length]),
        cmpBytes_fixedBE (ha c (by simp)) (hb d (by simp)),
        ih (fun x hx => ha x (by simp [hx])) (fun x hx => hb x (by simp [hx])),
        ← then_assoc_ord]
      rfl

theorem SubDocKey.items_wf {k : SubDocKey} (h : k.WF) : ItemsWF k.items := by
  obtain ⟨h1, h2, h3⟩ := h
  intro i hi
  unfold SubDocKey.items at hi
  rcases List.mem_append.1 hi with hm | hm
  · obtain ⟨c, hc, rfl⟩ := List.mem_map.1 hm
    exact h2 c hc
  · rcases hht : k.docHt with _ | t
    · rw [hht] at hm; simp at hm
    · rw [hht] at hm
      simp at hm
      subst hm
      rw [hht] at h3
      exact h3

/-- Core order-preservation property of the modelled codec: byte order of
encoded keys equals the abstract (DocKey, path, reverse-time) order. -/
theorem cmpBytes_encode {a b : SubDocKey} (ha : a.WF) (hb : b.WF) :
    cmpBytes a.encode b.encode = cmpSubDocKey a b := by
  unfold SubDocKey.encode cmpSubDocKey
  rw [cmpBytes_encComps ha.1 hb.1]
  rw [cmpBytes_encItems (SubDocKey.items_wf ha) (SubDocKey.items_wf hb)]

/-! ### Decoding and key surgery (modelled from the spec, sections 4.1/4.2) -/

theorem encDHT_length (t : DocHybridTime) : (encDHT t).length = 12 := by
  simp [encDHT, fixedBE_length]

theorem encDHT_mem_lt (t : DocHybridTime) : ∀ x ∈ encDHT t, x < 256 := by
  intro x hx
  rcases List.mem_append.1 hx with h | h
  · exact fixedBE_mem_lt _ _ x h
  · exact fixedBE_mem_lt _ _ x h

theorem encItems_append (xs ys : List KeyItem) :
    encItems (xs ++ ys) = encItems xs ++ encItems ys := by
  induction xs with
  | nil => rfl
  | cons i is ih => simp [encItems, ih]

/-- Modelled from the spec (4.1 `DecodeFromEnd`): decode the trailing
`DocHybridTime` of an encoded key (marker byte plus fixed-width reversed
fields); `none` plays the role of the `Corruption` status. -/
def DecodeHybridTimeFromEndOfKey (k : List Nat) : Option DocHybridTime :=
  if 13 ≤ k.length then
    match k.drop (k.length - 13) with
    | 0 :: rest =>
      if rest.all (fun x => decide (x < 256)) then
        some ⟨2 ^ 64 - 1 - fromBE (rest.take 8), 2 ^ 32 - 1 - fromBE (rest.drop 8)⟩
      else none
    | _ => none
  else none

/-- Modelled from the spec (4.1 `ReplaceLastHybridTimeForSeek`): rewrite only
the trailing timestamp field of an already-encoded key, installing
`(new_time, kMaxWriteId)` as used when probing at a read time. -/
def ReplaceLastHybridTimeForSeek (k : List Nat) (newTime : Nat) : List Nat :=
  k.take (k.length - 13) ++ encItem (.time ⟨newTime, kMaxWriteId⟩)

/-- Splitting an encoded key with a timestamp into its prefix and its
13-byte timestamp suffix. -/
theorem encode_split {k : SubDocKey} {t : DocHybridTime} (hht : k.docHt = some t) :
    k.encode = (encComps k.docKey ++ 0 :: encItems (k.subKeys.map .sub)) ++
      (0 :: encDHT t) := by
  unfold SubDocKey.encode SubDocKey.items
  rw [hht]
  rw [encItems_append]
  have h1 : encItems [KeyItem.time t] = 0 :: encDHT t := by
    simp [encItems, encItem]
  rw [h1]
  simp

theorem decodeDHT_encode {k : SubDocKey} {t : DocHybridTime}
    (hht : k.docHt = some t) (hwf : t.WF) :
    DecodeHybridTimeFromEndOfKey k.encode = some t := by
  obtain ⟨hp, hw⟩ := hwf
  rw [encode_split hht]
  set front := encComps k.docKey ++ 0 :: encItems (k.subKeys.map .sub) with hfront
  have hlen : (front ++ (0 :: encDHT t)).length = front.length + 13 := by
    simp [encDHT_length]
  unfold DecodeHybridTimeFromEndOfKey
  rw [hlen]
  rw [if_pos (by omega)]
  have hidx : front.length + 13 - 13 = front.length := by omega
  rw [hidx, List.drop_left]
  have hall : (encDHT t).all (fun x => decide (x < 256)) = true := by
    rw [List.all_eq_true]
    intro x hx
    simpa using encDHT_mem_lt t x hx
  simp only [hall, if_true]
  have htake : (encDHT t).take 8 = fixedBE 8 (2 ^ 64 - 1 - t.physical) := by
    unfold encDHT
    exact List.take_left' (fixedBE_length _ _)
  have hdrop : (encDHT t).drop 8 = fixedBE 4 (2 ^ 32 - 1 - t.writeId) := by
    unfold encDHT
    exact List.drop_left' (fixedBE_length _ _)
  rw [htake, hdrop, fromBE_fixedBE (by omega), fromBE_fixedBE (by omega)]
  have e1 : 2 ^ 64 - 1 - (2 ^ 64 - 1 - t.physical) = t.physical := by omega
  have e2 : 2 ^ 32 - 1 - (2 ^ 32 - 1 - t.writeId) = t.writeId := by omega
  rw [e1, e2]

/-- Parse the marker-prefixed DocKey components up to the terminator byte. -/
def parseComps : List Nat → Option (List Nat × List Nat)
  | 0 :: rest => some ([], rest)
  | 1 :: b1 :: b2 :: b3 :: b4 :: rest =>
    match parseComps rest with
    | some (cs, r) => some (fromBE [b1, b2, b3, b4] :: cs, r)
    | none => none
  | _ => none

/-- Parse the item sequence: sub-path components, then the optional
timestamp item. -/
def parseItems : List Nat → Option (List Nat × Option DocHybridTime)
  | [] => some ([], none)
  | 0 :: rest =>
    if rest.length = 12 then
      some ([], some ⟨2 ^ 64 - 1 - fromBE (rest.take 8), 2 ^ 32 - 1 - fromBE (rest.drop 8)⟩)
    else none
  | 1 :: b1 :: b2 :: b3 :: b4 :: rest =>
    match parseItems rest with
    | some (cs, ht) => some (fromBE [b1, b2, b3, b4] :: cs, ht)
    | none => none
  | _ => none

/-- Modelled from the spec (4.2 `FullyDecodeFrom`): decode an encoded
`SubDocKey`; fails (`none`, the `Corruption` status) on malformed input, and,
when `requireHybridTime` is set, on a key without a timestamp suffix. -/
def FullyDecodeFrom (bytes : List Nat) (requireHybridTime : Bool) :
    Option SubDocKey :=
  match parseComps bytes with
  | some (dk, rest) =>
    match parseItems rest with
    | some (subs, ht) =>
      if requireHybridTime && ht.isNone then none else some ⟨dk, subs, ht⟩
    | none => none
  | none => none

theorem list_len_four {l : List Nat} (h : l.length = 4) :
    ∃ a b c d, l = [a, b, c, d] := by
  rcases l with _ | ⟨a, l⟩; · simp at h
  rcases l with _ | ⟨b, l⟩; · simp at h
  rcases l with _ | ⟨c, l⟩; · simp at h
  rcases l with _ | ⟨d, l⟩; · simp at h
  rcases l with _ | ⟨e, l⟩
  · exact ⟨a, b, c, d, rfl⟩
  · simp at h

theorem fromBE_fixedBE_four {c : Nat} (hc : c < 2 ^ 32)
    {b1 b2 b3 b4 : Nat} (heq : fixedBE 4 c = [b1, b2, b3, b4]) :
    fromBE [b1, b2, b3, b4] = c := by
  rw [← heq]
  exact fromBE_fixedBE (by omega)

theorem parseComps_enc (dk : List Nat) (h : ∀ c ∈ dk, c < 2 ^ 32)
    (r : List Nat) :
    parseComps (encComps dk ++ 0 :: r) = some (dk, r) := by
  induction dk with
  | nil => rfl
  | cons c cs ih =>
    have hc : c < 2 ^ 32 := h c (by simp)
    obtain ⟨b1, b2, b3, b4, heq⟩ := list_len_four (fixedBE_length 4 c)
    have hfrom : fromBE [b1, b2, b3, b4] = c := fromBE_fixedBE_four hc heq
    show parseComps ((1 :: (fixedBE 4 c ++ encComps cs)) ++ 0 :: r) = _
    rw [heq]
    show parseComps (1 :: b1 :: b2 :: b3 :: b4 :: (encComps cs ++ 0 :: r)) = _
    rw [parseComps, ih (fun x hx => h x (by simp [hx])), hfrom]

theorem parseItems_enc_none (subs : List Nat) (hs : ∀ c ∈ subs, c < 2 ^ 32) :
    parseItems (encItems (subs.map .sub)) = some (subs, none) := by
  induction subs with
  | nil => rfl
  | cons c cs ih =>
    have hc : c < 2 ^ 32 := hs c (by simp)
    obtain ⟨b1, b2, b3, b4, heq⟩ := list_len_four (fixedBE_length 4 c)
    have hfrom : fromBE [b1, b2, b3, b4] = c := fromBE_fixedBE_four hc heq
    show parseItems ((1 :: fixedBE 4 c) ++ encItems (cs.map .sub)) = _
    rw [heq]
    show parseItems (1 :: b1 :: b2 :: b3 :: b4 :: encItems (cs.map .sub)) = _
    rw [parseItems, ih (fun x hx => hs x (by simp [hx])), hfrom]

theorem parseItems_enc_some (subs : List Nat) (t : DocHybridTime)
    (hs : ∀ c ∈ subs, c < 2 ^ 32) (hwf : t.WF) :
    parseItems (encItems (subs.map .sub ++ [.time t])) = some (subs, some t) := by
  obtain ⟨hp, hw⟩ := hwf
  induction subs with
  | nil =>
    show parseItems ((0 :: encDHT t) ++ []) = _
    rw [List.append_nil]
    rw [parseItems]
    rw [if_pos (encDHT_length t)]
    have htake : (encDHT t).take 8 = fixedBE 8 (2 ^ 64 - 1 - t.physical) := by
      unfold encDHT
      exact List.take_left' (fixedBE_length _ _)
    have hdrop : (encDHT t).drop 8 = fixedBE 4 (2 ^ 32 - 1 - t.writeId) := by
      unfold encDHT
      exact List.drop_left' (fixedBE_length _ _)
    rw [htake, hdrop, fromBE_fixedBE (by omega), fromBE_fixedBE (by omega)]
    have e1 : 2 ^ 64 - 1 - (2 ^ 64 - 1 - t.physical) = t.physical := by omega
    have e2 : 2 ^ 32 - 1 - (2 ^ 32 - 1 - t.writeId) = t.writeId := by omega
    rw [e1, e2]
  | cons c cs ih =>
    have hc : c < 2 ^ 32 := hs c (by simp)
    obtain ⟨b1, b2, b3, b4, heq⟩ := list_len_four (fixedBE_length 4 c)
    have hfrom : fromBE [b1, b2, b3, b4] = c := fromBE_fixedBE_four hc heq
    show parseItems ((1 :: fixedBE 4 c) ++ encItems (cs.map .sub ++ [.time t])) = _
    rw [heq]
    show parseItems
      (1 :: b1 :: b2 :: b3 :: b4 :: encItems (cs.map .sub ++ [.time t])) = _
    rw [parseItems, ih (fun x hx => hs x (by simp [hx])), hfrom]

theorem fullyDecode_encode {k : SubDocKey} (hk : k.WF) (req : Bool)
    (hreq : req = false ∨ k.docHt.isSome = true) :
    FullyDecodeFrom k.encode req = some k := by
  obtain ⟨dk, subs, ht⟩ := k
  obtain ⟨h1, h2, h3⟩ := hk
  rcases ht with _ | t
  · have hitems : SubDocKey.items ⟨dk, subs, none⟩ = subs.map .sub := by
      simp [SubDocKey.items]
    unfold FullyDecodeFrom SubDocKey.encode
    rw [hitems]
    simp only [parseComps_enc dk h1, parseItems_enc_none subs h2]
    rcases hreq with rfl | hsome
    · simp
    · simp at hsome
  · have hitems : SubDocKey.items ⟨dk, subs, some t⟩ =
        subs.map .sub ++ [.time t] := rfl
    unfold FullyDecodeFrom SubDocKey.encode
    rw [hitems]
    simp only [parseComps_enc dk h1, parseItems_enc_some subs t h2 h3]
    simp

theorem decodeDHT_some {k : List Nat} {dht : DocHybridTime}
    (hdec : DecodeHybridTimeFromEndOfKey k = some dht) :
    13 ≤ k.length ∧ ∃ rest, k.drop (k.length - 13) = 0 :: rest ∧
      (∀ x ∈ rest, x < 256) ∧
      dht = ⟨2 ^ 64 - 1 - fromBE (rest.take 8),
             2 ^ 32 - 1 - fromBE (rest.drop 8)⟩ := by
  unfold DecodeHybridTimeFromEndOfKey at hdec
  split at hdec
  · rename_i hlen
    split at hdec
    · rename_i rest heq
      split at hdec
      · rename_i hall
        refine ⟨hlen, rest, heq, ?_, ?_⟩
        · intro x hx
          have := (List.all_eq_true.1 hall) x hx
          simpa using this
        · injection hdec with h
          exact h.symm
      · exact absurd hdec (by simp)
    · exact absurd hdec (by simp)
  · exact absurd hdec (by simp)

/-- The strict-advance property of the probe rewrite: if a key carries a
decodable trailing timestamp that is newer than the read time, replacing that
timestamp with the read time produces a strictly larger key in byte order. -/
theorem replaceLast_advance {k : List Nat} {dht : DocHybridTime} {rt : Nat}
    (hdec : DecodeHybridTimeFromEndOfKey k = some dht)
    (hgt : rt < dht.physical) :
    cmpBytes k (ReplaceLastHybridTimeForSeek k rt) = .lt := by
  obtain ⟨hlen, rest, heq, hbytes, hdht⟩ := decodeDHT_some hdec
  have hrestlen : rest.length = 12 := by
    have h1 : (k.drop (k.length - 13)).length = 13 := by
      rw [List.length_drop]
      omega
    rw [heq] at h1
    simpa using h1
  have hk : k = k.take (k.length - 13) ++ (0 :: rest) := by
    rw [← heq, List.take_append_drop]
  unfold ReplaceLastHybridTimeForSeek
  nth_rewrite 1 [hk]
  rw [cmpBytes_append_left]
  show cmpBytes (0 :: rest) (0 :: encDHT ⟨rt, kMaxWriteId⟩) = .lt
  rw [cmpBytes_cons, natCmp_self, eq_then_ord]
  have htlen : (rest.take 8).length = 8 := by
    rw [List.length_take]
    omega
  have hbytes8 : ∀ x ∈ rest.take 8, x < 256 :=
    fun x hx => hbytes x (List.mem_of_mem_take hx)
  have ha : rest.take 8 = fixedBE 8 (fromBE (rest.take 8)) := by
    conv_lhs => rw [← fixedBE_fromBE (rest.take 8) hbytes8]
    rw [htlen]
  have hab : fromBE (rest.take 8) < 256 ^ 8 := by
    have := fromBE_lt (rest.take 8) hbytes8
    rwa [htlen] at this
  nth_rewrite 1 [(List.take_append_drop 8 rest).symm]
  rw [ha]
  show cmpBytes (fixedBE 8 (fromBE (rest.take 8)) ++ rest.drop 8)
    (fixedBE 8 (2 ^ 64 - 1 - rt) ++ fixedBE 4 (2 ^ 32 - 1 - kMaxWriteId)) = .lt
  rw [cmpBytes_append_congr (by rw [fixedBE_length, fixedBE_length]),
    cmpBytes_fixedBE hab (by omega)]
  have hlt : fromBE (rest.take 8) < 2 ^ 64 - 1 - rt := by
    have hphys : dht.physical = 2 ^ 64 - 1 - fromBE (rest.take 8) := by
      rw [hdht]
    omega
  rw [natCmp_eq_lt.2 hlt]
  rfl

/-- `starts_with` of rocksdb slices: is the second argument a prefix of the
first. -/
def startsWithB : List Nat → List Nat → Bool
  | _, [] => true
  | [], _ :: _ => false
  | a :: as, b :: bs => a == b && startsWithB as bs

theorem startsWithB_append (p r : List Nat) : startsWithB (p ++ r) p = true := by
  induction p with
  | nil => cases r <;> rfl
  | cons x xs ih => simp [startsWithB, ih]

/-! ### The ordered-iterator model and `PerformRocksDBSeek` -/

/-- A stored payload: a tombstone marker or opaque data (spec section 3,
`Value`). -/
inductive PayloadData where
  | tombstone
  | data (n : Nat)
deriving DecidableEq, Repr, Inhabited

/-- Modelled from the spec (sections 3 and 4.5): a stored value is an
optional TTL (`none` is the `kMaxTtl` "never expires" sentinel) plus the
payload. -/
structure RawValue where
  ttl : Option Nat
  payload : PayloadData
deriving DecidableEq, Repr, Inhabited

abbrev DbEntry := List Nat × RawValue

/-- A rocksdb-style forward iterator over a fixed ordered keyspace: the
entry list plus a cursor.  `pos ≥ entries.length` is the invalid (exhausted)
state. -/
structure Iter where
  entries : List DbEntry
  pos : Nat
deriving DecidableEq, Repr

def Iter.valid (it : Iter) : Bool := decide (it.pos < it.entries.length)

def Iter.curEntry (it : Iter) : DbEntry := it.entries.getD it.pos ([], default)

def Iter.curKey (it : Iter) : List Nat := it.curEntry.1

def Iter.curValue (it : Iter) : RawValue := it.curEntry.2

def Iter.next (it : Iter) : Iter := ⟨it.entries, it.pos + 1⟩

def Iter.seekToFirst (it : Iter) : Iter := ⟨it.entries, 0⟩

/-- Index of the first entry whose key is at or after `k` in byte order (the
position a native rocksdb `Seek(k)` produces); `entries.length` when there is
none. -/
def lowerBound (entries : List DbEntry) (k : List Nat) : Nat :=
  match entries with
  | [] => 0
  | e :: rest => if cmpBytes e.1 k = .lt then lowerBound rest k + 1 else 0

/-- A native engine seek: reposition at the first key at or after `k`. -/
def Iter.seek (it : Iter) (k : List Nat) : Iter :=
  ⟨it.entries, lowerBound it.entries k⟩

/-- Sortedness of a keyspace: strictly increasing keys in byte order (the
engine invariant for a rocksdb snapshot). -/
def EntriesSorted (entries : List DbEntry) : Prop :=
  List.Pairwise (fun a b => cmpBytes a.1 b.1 = .lt) entries

/-- Default value of the `max_nexts_to_avoid_seek` flag of the source. -/
def kMaxNextsToAvoidSeek : Nat := 8

/-- The stepping loop of `PerformRocksDBSeek`: before each step check whether
the iterator has reached or passed `k` (or died); if not and budget remains,
do one `Next`; if the budget is exhausted, fall back to one native seek.
Returns the final iterator together with the source's `next_count` and
`seek_count` diagnostic counters. -/
def seekStepLoop (k : List Nat) : Nat → Iter → Iter × Nat × Nat
  | 0, it =>
    if it.valid = true ∧ cmpBytes it.curKey k = .lt then (it.seek k, 0, 1)
    else (it, 0, 0)
  | fuel + 1, it =>
    if it.valid = true ∧ cmpBytes it.curKey k = .lt then
      let r := seekStepLoop k fuel it.next
      (r.1, r.2.1 + 1, r.2.2)
    else (it, 0, 0)

/-- `PerformRocksDBSeek` of `docdb_rocksdb_util.cc`, with the source's
`next_count`/`seek_count` counters made explicit: empty seek key →
`SeekToFirst`; invalid iterator or current key strictly past the seek key →
direct native seek; otherwise the bounded step loop. -/
def PerformRocksDBSeekCounted (maxSteps : Nat) (it : Iter) (seekKey : List Nat) :
    Iter × Nat × Nat :=
  if seekKey.length = 0 then (it.seekToFirst, 0, 0)
  else if it.valid = false ∨ cmpBytes it.curKey seekKey = .gt then
    (it.seek seekKey, 0, 0)
  else seekStepLoop seekKey maxSteps it

/-- `PerformRocksDBSeek`: the final iterator state of the adaptive
seek-or-step heuristic. -/
def PerformRocksDBSeek (maxSteps : Nat) (it : Iter) (seekKey : List Nat) : Iter :=
  (PerformRocksDBSeekCounted maxSteps it seekKey).1

/-- `SeekForward` of `docdb_rocksdb_util.cc`: seek only if currently strictly
before `target` (the `ROCKSDB_SEEK` macro expands to `PerformRocksDBSeek`
with the default step budget). -/
def SeekForward (target : List Nat) (it : Iter) : Iter :=
  if it.valid = false ∨ cmpBytes it.curKey target ≠ .lt then it
  else PerformRocksDBSeek kMaxNextsToAvoidSeek it target

theorem cmpBytes_ne_lt_nil (l : List Nat) : cmpBytes l [] ≠ .lt := by
  cases l <;> simp [cmpBytes]

theorem lowerBound_nil_key (entries : List DbEntry) : lowerBound entries [] = 0 := by
  cases entries with
  | nil => rfl
  | cons e rest =>
    unfold lowerBound
    rw [if_neg (cmpBytes_ne_lt_nil e.1)]

theorem lowerBound_le_length (entries : List DbEntry) (k : List Nat) :
    lowerBound entries k ≤ entries.length := by
  induction entries with
  | nil => simp [lowerBound]
  | cons e rest ih =>
    unfold lowerBound
    split
    · simp only [List.length_cons]
      omega
    · simp

theorem lowerBound_eq {entries : List DbEntry} {k : List Nat} {i : Nat}
    (hle : i ≤ entries.length)
    (hbefore : ∀ j, j < i → cmpBytes (entries.getD j ([], default)).1 k = .lt)
    (hat : i = entries.length ∨ cmpBytes (entries.getD i ([], default)).1 k ≠ .lt) :
    lowerBound entries k = i := by
  induction entries generalizing i with
  | nil =>
    simp at hle
    subst hle
    rfl
  | cons e rest ih =>
    rcases i with _ | i'
    · unfold lowerBound
      rcases hat with h | h
      · simp at h
      · simp only [List.getD_cons_zero] at h
        rw [if_neg h]
    · have h0 : cmpBytes e.1 k = .lt := by
        have := hbefore 0 (by omega)
        simpa using this
      unfold lowerBound
      rw [if_pos h0]
      have hrec : lowerBound rest k = i' := by
        apply ih (by simpa using hle)
        · intro j hj
          have := hbefore (j + 1) (by omega)
          simpa using this
        · rcases hat with h | h
          · left
            simpa using h
          · right
            simpa using h
      omega

theorem lowerBound_spec_before {entries : List DbEntry} {k : List Nat} :
    ∀ j, j < lowerBound entries k →
      cmpBytes (entries.getD j ([], default)).1 k = .lt := by
  induction entries with
  | nil => simp [lowerBound]
  | cons e rest ih =>
    intro j hj
    unfold lowerBound at hj
    by_cases h : cmpBytes e.1 k = .lt
    · rw [if_pos h] at hj
      rcases j with _ | j'
      · simpa using h
      · simp only [List.getD_cons_succ]
        exact ih j' (by omega)
    · rw [if_neg h] at hj
      omega

theorem lowerBound_spec_at {entries : List DbEntry} {k : List Nat}
    (h : lowerBound entries k < entries.length) :
    cmpBytes (entries.getD (lowerBound entries k) ([], default)).1 k ≠ .lt := by
  induction entries with
  | nil => simp at h
  | cons e rest ih =>
    by_cases he : cmpBytes e.1 k = .lt
    · have hlb : lowerBound (e :: rest) k = lowerBound rest k + 1 := by
        show (if cmpBytes e.1 k = .lt then lowerBound rest k + 1 else 0) = _
        rw [if_pos he]
      rw [hlb]
      simp only [List.getD_cons_succ]
      apply ih
      rw [hlb] at h
      simpa using h
    · have hlb : lowerBound (e :: rest) k = 0 := by
        show (if cmpBytes e.1 k = .lt then lowerBound rest k + 1 else 0) = 0
        rw [if_neg he]
      rw [hlb]
      simpa using he

theorem getD_mem_of_lt {α : Type} {l : List α} {n : Nat} (h : n < l.length)
    (d : α) : l.getD n d ∈ l := by
  induction l generalizing n with
  | nil => simp at h
  | cons e rest ih =>
    rcases n with _ | n'
    · simp
    · simp only [List.getD_cons_succ]
      exact List.mem_cons_of_mem _ (ih (by simpa using h))

theorem pairwise_getD {α : Type} {R : α → α → Prop} {l : List α}
    (h : l.Pairwise R) {i j : Nat} (hij : i < j) (hj : j < l.length) (d : α) :
    R (l.getD i d) (l.getD j d) := by
  induction l generalizing i j with
  | nil => simp at hj
  | cons e rest ih =>
    obtain ⟨he, hrest⟩ := List.pairwise_cons.1 h
    rcases i with _ | i'
    · rcases j with _ | j'
      · omega
      · simp only [List.getD_cons_zero, List.getD_cons_succ]
        exact he _ (getD_mem_of_lt (by simpa using hj) d)
    · rcases j with _ | j'
      · omega
      · simp only [List.getD_cons_succ]
        exact ih hrest (by omega) (by simpa using hj)

theorem seekStepLoop_fst {k : List Nat} {entries : List DbEntry} :
    ∀ (fuel p : Nat), p ≤ entries.length →
      (∀ j, j < p → cmpBytes ((entries.getD j ([], default)).1) k = .lt) →
      (seekStepLoop k fuel ⟨entries, p⟩).1 = ⟨entries, lowerBound entries k⟩ := by
  intro fuel
  induction fuel with
  | zero =>
    intro p hp hinv
    unfold seekStepLoop
    split
    · rfl
    · rename_i hstop
      rw [not_and_or] at hstop
      have hlb : lowerBound entries k = p := by
        rcases hstop with hv | hc
        · have hpe : p = entries.length := by
            unfold Iter.valid at hv
            simp at hv
            omega
          exact lowerBound_eq hp hinv (Or.inl hpe)
        · exact lowerBound_eq hp hinv (Or.inr hc)
      rw [hlb]
  | succ fuel ih =>
    intro p hp hinv
    unfold seekStepLoop
    split
    · rename_i hcont
      obtain ⟨hv, hc⟩ := hcont
      have hplt : p < entries.length := by
        unfold Iter.valid at hv
        simpa using hv
      show (seekStepLoop k fuel (Iter.next ⟨entries, p⟩)).1 = _
      apply ih (p + 1) (by omega)
      intro j hj
      rcases Nat.lt_or_ge j p with hjp | hjp
      · exact hinv j hjp
      · have : j = p := by omega
        subst this
        exact hc
    · rename_i hstop
      rw [not_and_or] at hstop
      have hlb : lowerBound entries k = p := by
        rcases hstop with hv | hc
        · have hpe : p = entries.length := by
            unfold Iter.valid at hv
            simp at hv
            omega
          exact lowerBound_eq hp hinv (Or.inl hpe)
        · exact lowerBound_eq hp hinv (Or.inr hc)
      rw [hlb]

/-- Core equivalence: under a sorted keyspace, `PerformRocksDBSeek` lands
exactly where one native `Seek` would, for every initial iterator state,
seek key and step budget. -/
theorem performSeek_eq_seek {maxSteps : Nat} {it : Iter} {k : List Nat}
    (hs : EntriesSorted it.entries) :
    PerformRocksDBSeek maxSteps it k = it.seek k := by
  obtain ⟨entries, p⟩ := it
  have hs' : EntriesSorted entries := hs
  unfold PerformRocksDBSeek PerformRocksDBSeekCounted
  split
  · rename_i hk
    have hknil : k = [] := List.length_eq_zero.1 hk
    subst hknil
    show Iter.seekToFirst ⟨entries, p⟩ = Iter.seek ⟨entries, p⟩ []
    unfold Iter.seekToFirst Iter.seek
    rw [lowerBound_nil_key]
  · split
    · rfl
    · rename_i hk hcond
      rw [not_or] at hcond
      obtain ⟨hvalid, hcmp⟩ := hcond
      have hv : Iter.valid ⟨entries, p⟩ = true := by
        revert hvalid
        cases Iter.valid ⟨entries, p⟩ <;> simp
      have hp : p < entries.length := by
        unfold Iter.valid at hv
        simpa using hv
      have hcmp' : cmpBytes ((entries.getD p ([], default)).1) k ≠ .gt := hcmp
      have hinv : ∀ j, j < p →
          cmpBytes ((entries.getD j ([], default)).1) k = .lt := by
        intro j hj
        have hjk : cmpBytes ((entries.getD j ([], default)).1)
            ((entries.getD p ([], default)).1) = .lt :=
          pairwise_getD hs' hj hp _
        cases hcase : cmpBytes ((entries.getD p ([], default)).1) k with
        | lt => exact cmpBytes_lt_trans hjk hcase
        | eq =>
          have hkey := cmpBytes_eq_iff.1 hcase
          rw [← hkey]
          exact hjk
        | gt => exact absurd hcase hcmp'
      exact seekStepLoop_fst maxSteps p (by omega) hinv

/-! ### `SeekToValidKvAtTs` (yb/docdb/docdb_rocksdb_util.cc) -/

inductive DocReadError where
  | corruption
  | outOfFuel
deriving DecidableEq, Repr

inductive SeekOutcome where
  | notFound
  | found (key : SubDocKey) (value : PayloadData)
deriving DecidableEq, Repr

/-- The hybrid-time part of a key's timestamp (the source `DCHECK`s validity;
a missing timestamp is modelled as 0). -/
def SubDocKey.hybridTime (k : SubDocKey) : Nat :=
  match k.docHt with
  | some t => t.physical
  | none => 0

/-- Modelled from the spec (section 4.3 step 5, `SetHybridTimeForReadPath`):
report the found key at the given instant instead of its stored write time. -/
def SubDocKey.setHybridTimeForReadPath (k : SubDocKey) (ht : Nat) : SubDocKey :=
  { k with docHt := some ⟨ht, kMaxWriteId⟩ }

/-- The probe/reseek loop of `SeekToValidKvAtTs` (the `while (true)` of the
source): seek to the probe key (via the `ROCKSDB_SEEK` macro, i.e.
`PerformRocksDBSeek`); if the iterator is exhausted or the current key no
longer starts with `searchKey` → not found (`.ok none`); decode the trailing
timestamp (a failure is the propagated `Corruption`); if it is at or before
the read time the current position is the answer, otherwise rewrite the probe
with `ReplaceLastHybridTimeForSeek` and repeat.  `fuel` bounds the number of
engine seeks; the source loop is unbounded (termination is claim C5). -/
def seekToValidKvLoop (searchKey : List Nat) (readTime : Nat) :
    Nat → Iter → List Nat → Except DocReadError (Option Iter)
  | 0, _, _ => .error .outOfFuel
  | fuel + 1, it, seekKeyBytes =>
    let it2 := PerformRocksDBSeek kMaxNextsToAvoidSeek it seekKeyBytes
    if it2.valid = true ∧ startsWithB it2.curKey searchKey = true then
      match DecodeHybridTimeFromEndOfKey it2.curKey with
      | none => .error .corruption
      | some dht =>
        if dht.physical ≤ readTime then .ok (some it2)
        else seekToValidKvLoop searchKey readTime fuel it2
          (ReplaceLastHybridTimeForSeek it2.curKey readTime)
    else .ok none

/-- `SeekToValidKvAtTs` of `docdb_rocksdb_util.cc`: find the latest visible
version of `searchKey` at `readTime`.  `.ok .notFound` models `Status::OK`
with `*is_found = false`; `.ok (.found k v)` models `Status::OK` with the
decoded `*found_key` / `*found_value`; `.error` models a non-OK status.  The
initial probe appends `DocHybridTime(readTime, kMaxWriteId)`.  After the loop
the current key is fully decoded and TTL expiry is resolved: when the value
carries a TTL and the read time is strictly past the expiry instant
(`write_time + ttl`, computed by `AddPhysicalTimeToHybridTime`, modelled from
the spec as addition of the duration to the physical time), a tombstone is
synthesized and the found key is reported at the expiry instant. -/
def SeekToValidKvAtTs (it : Iter) (searchKey : List Nat) (readTime : Nat)
    (fuel : Nat) : Except DocReadError SeekOutcome :=
  match seekToValidKvLoop searchKey readTime fuel it
      (searchKey ++ encItem (.time ⟨readTime, kMaxWriteId⟩)) with
  | .error e => .error e
  | .ok none => .ok .notFound
  | .ok (some it2) =>
    match FullyDecodeFrom it2.curKey true with
    | none => .error .corruption
    | some foundKey =>
      match it2.curValue.ttl with
      | some ttl =>
        if foundKey.hybridTime + ttl < readTime then
          .ok (.found
            (foundKey.setHybridTimeForReadPath (foundKey.hybridTime + ttl))
            .tombstone)
        else .ok (.found foundKey it2.curValue.payload)
      | none => .ok (.found foundKey it2.curValue.payload)

/-! ### `PlainBlockDecoder::SeekAtOrAfterValue` (yb/cfile/plain_block.h) -/

inductive BlockStatus where
  | ok
  | notFound
deriving DecidableEq, Repr

/-- The binary-search loop of `SeekAtOrAfterValue`: `left`/`right` bracket
the candidate range; an exact hit returns its index immediately.  Returns
`(cur_idx_, exact_match)`. -/
def sAALoop (elems : List Nat) (target : Nat) (left right : Nat) : Nat × Bool :=
  if h : left < right then
    if elems.getD ((left + right) / 2) 0 < target then
      sAALoop elems target ((left + right) / 2 + 1) right
    else if target < elems.getD ((left + right) / 2) 0 then
      sAALoop elems target left ((left + right) / 2)
    else ((left + right) / 2, true)
  else (left, false)
termination_by right - left
decreasing_by
  · omega
  · omega

/-- `SeekAtOrAfterValue` of `PlainBlockDecoder`, on the decoded element list
of a parsed block: binary-search for the first element at or after `target`;
report `NotFound` exactly when the search runs off the end.  Returns the
status, the final `cur_idx_`, and `exact_match`. -/
def SeekAtOrAfterValue (elems : List Nat) (target : Nat) :
    BlockStatus × Nat × Bool :=
  let r := sAALoop elems target 0 elems.length
  if r.2 then (.ok, r.1, true)
  else if r.1 = elems.length then (.notFound, r.1, false)
  else (.ok, r.1, false)

/-! ### The debug-build seek-key validation of `PerformRocksDBSeek` -/

/-- The `#ifndef NDEBUG` validation block of `PerformRocksDBSeek`: decode a
trailing timestamp from the seek key; if its write id is not `kMaxWriteId`
and it is not the `kMin` sentinel, fully decode the key (not requiring a
hybrid time); the `DCHECK` fires exactly when that decode succeeds and the
key really carries a hybrid time.  The check only reads the key. -/
def seekKeyValidationFires (seekKey : List Nat) : Bool :=
  match DecodeHybridTimeFromEndOfKey seekKey with
  | some dht =>
    if dht.writeId ≠ kMaxWriteId ∧ dht ≠ DocHybridTime.kMin then
      match FullyDecodeFrom seekKey false with
      | some subdocKey => subdocKey.docHt.isSome
      | none => false
    else false
  | none => false

/-- Debug-build `PerformRocksDBSeek`: the validation verdict (whether the
`DCHECK` fires) paired with exactly the same seek the optimized build
performs — the validation flags, it never corrects. -/
def PerformRocksDBSeekDebug (maxSteps : Nat) (it : Iter) (seekKey : List Nat) :
    Bool × Iter :=
  (seekKeyValidationFires seekKey, PerformRocksDBSeek maxSteps it seekKey)

/-! ### Decidability instances (for concrete evaluation) -/

instance {e a : Type} [DecidableEq e] [DecidableEq a] :
    DecidableEq (Except e a) := fun x y =>
  match x, y with
  | .ok u, .ok v =>
    if h : u = v then isTrue (by rw [h]) else isFalse (by simp [h])
  | .error u, .error v =>
    if h : u = v then isTrue (by rw [h]) else isFalse (by simp [h])
  | .ok _, .error _ => isFalse (by simp)
  | .error _, .ok _ => isFalse (by simp)

instance (entries : List DbEntry) : Decidable (EntriesSorted entries) :=
  inferInstanceAs
    (Decidable (List.Pairwise (fun a b : DbEntry => cmpBytes a.1 b.1 = .lt)
      entries))

instance (t : DocHybridTime) : Decidable t.WF :=
  inferInstanceAs (Decidable (t.physical < 2 ^ 64 ∧ t.writeId < 2 ^ 32))

instance (k : SubDocKey) : Decidable k.WF := by
  unfold SubDocKey.WF
  cases k.docHt with
  | none =>
    exact inferInstanceAs (Decidable
      ((∀ c ∈ k.docKey, c < 2 ^ 32) ∧ (∀ c ∈ k.subKeys, c < 2 ^ 32) ∧ True))
  | some t =>
    exact inferInstanceAs (Decidable
      ((∀ c ∈ k.docKey, c < 2 ^ 32) ∧ (∀ c ∈ k.subKeys, c < 2 ^ 32) ∧
        DocHybridTime.WF t))

/-! ### Claim theorems -/

/-- Claim C6: the SubDocKey encoding is strictly order-preserving: for any
two well-formed SubDocKeys `a` and `b`, `Encode(a) < Encode(b)` as byte
strings iff `a` precedes `b` in the combined (DocKey, sub-path,
reverse-DocHybridTime) order `cmpSubDocKey`, so byte-lexicographic iteration
over encoded keys performs document-tree pre-order traversal with
most-recent versions first. -/
theorem C6_encoding_order_preserving {a b : SubDocKey} (ha : a.WF) (hb : b.WF) :
    cmpBytes a.encode b.encode = .lt ↔ cmpSubDocKey a b = .lt := by
  rw [cmpBytes_encode ha hb]

theorem C6_encoding_order_preserving_witness :
    SubDocKey.WF ⟨[1], [2], some ⟨10, 0⟩⟩ ∧
    SubDocKey.WF ⟨[1], [2, 3], none⟩ ∧
    (cmpBytes (SubDocKey.encode ⟨[1], [2], some ⟨10, 0⟩⟩)
        (SubDocKey.encode ⟨[1], [2, 3], none⟩) = .lt ↔
      cmpSubDocKey ⟨[1], [2], some ⟨10, 0⟩⟩ ⟨[1], [2, 3], none⟩ = .lt) :=
  ⟨by decide, by decide, C6_encoding_order_preserving (by decide) (by decide)⟩

/-- Reference implementation of the spec's equivalence test: always issue a
single native `Seek(seek_key)`. -/
def alwaysSeekReference (it : Iter) (seekKey : List Nat) : Iter :=
  it.seek seekKey

/-- Claim C3: for every initial iterator state over a sorted keyspace, every
seek key and every step budget, the final iterator produced by
`PerformRocksDBSeek` (and hence the key/value observed afterwards) is the
one produced by the always-seek reference implementation: the seek-vs-step
heuristic never changes the resulting position. -/
theorem C3_seek_step_equivalence (maxSteps : Nat) (it : Iter) (k : List Nat)
    (hs : EntriesSorted it.entries) :
    PerformRocksDBSeek maxSteps it k = alwaysSeekReference it k :=
  performSeek_eq_seek hs

theorem C3_seek_step_equivalence_witness :
    EntriesSorted [([0], ⟨none, .data 0⟩), ([5], ⟨none, .data 1⟩)] ∧
    PerformRocksDBSeek 8 ⟨[([0], ⟨none, .data 0⟩), ([5], ⟨none, .data 1⟩)], 0⟩
        [5] =
      alwaysSeekReference
        ⟨[([0], ⟨none, .data 0⟩), ([5], ⟨none, .data 1⟩)], 0⟩ [5] :=
  ⟨by decide, C3_seek_step_equivalence 8 _ [5] (by decide)⟩

/-- The stop condition of the step loop, as in the source: the iterator is
dead, or its current key has reached or passed the seek key (the negation of
the loop-continue test `Valid() && key < seek_key`). -/
def stopPred (it : Iter) (k : List Nat) : Prop :=
  ¬ (it.valid = true ∧ cmpBytes it.curKey k = .lt)

theorem seekStepLoop_spec (k : List Nat) :
    ∀ (fuel : Nat) (it : Iter),
      ∃ j, j ≤ fuel ∧
        (∀ m, m < j → (Iter.next^[m] it).valid = true ∧
          cmpBytes (Iter.next^[m] it).curKey k = .lt) ∧
        ((stopPred (Iter.next^[j] it) k ∧
            seekStepLoop k fuel it = (Iter.next^[j] it, j, 0)) ∨
          (j = fuel ∧ ¬ stopPred (Iter.next^[j] it) k ∧
            seekStepLoop k fuel it = ((Iter.next^[j] it).seek k, j, 1))) := by
  intro fuel
  induction fuel with
  | zero =>
    intro it
    refine ⟨0, Nat.le_refl 0, fun m hm => absurd hm (by omega), ?_⟩
    by_cases hc : it.valid = true ∧ cmpBytes it.curKey k = .lt
    · right
      refine ⟨rfl, by simpa [stopPred] using hc, ?_⟩
      show seekStepLoop k 0 it = (it.seek k, 0, 1)
      unfold seekStepLoop
      rw [if_pos hc]
    · left
      refine ⟨hc, ?_⟩
      show seekStepLoop k 0 it = (it, 0, 0)
      unfold seekStepLoop
      rw [if_neg hc]
  | succ fuel ih =>
    intro it
    by_cases hc : it.valid = true ∧ cmpBytes it.curKey k = .lt
    · obtain ⟨j, hj, hsteps, hres⟩ := ih it.next
      refine ⟨j + 1, by omega, ?_, ?_⟩
      · intro m hm
        rcases m with _ | m'
        · simpa using hc
        · rw [Function.iterate_succ_apply]
          exact hsteps m' (by omega)
      · have hrw : seekStepLoop k (fuel + 1) it =
            ((seekStepLoop k fuel it.next).1,
              (seekStepLoop k fuel it.next).2.1 + 1,
              (seekStepLoop k fuel it.next).2.2) := by
          show (if it.valid = true ∧ cmpBytes it.curKey k = .lt then
              ((seekStepLoop k fuel it.next).1,
                (seekStepLoop k fuel it.next).2.1 + 1,
                (seekStepLoop k fuel it.next).2.2)
            else (it, 0, 0)) = _
          rw [if_pos hc]
        rcases hres with ⟨hstop, heq⟩ | ⟨hjf, hnstop, heq⟩
        · left
          rw [Function.iterate_succ_apply]
          refine ⟨hstop, ?_⟩
          rw [hrw, heq]
        · right
          rw [Function.iterate_succ_apply]
          refine ⟨by omega, hnstop, ?_⟩
          rw [hrw, heq]
    · refine ⟨0, by omega, fun m hm => absurd hm (by omega), ?_⟩
      left
      refine ⟨hc, ?_⟩
      show seekStepLoop k (fuel + 1) it = (it, 0, 0)
      unfold seekStepLoop
      rw [if_neg hc]

/-- Claim C4 (amended): `PerformRocksDBSeek` follows this three-branch
algorithm: an empty seek key repositions to the very first key; an invalid
iterator, or one positioned strictly *after* the seek key, gets one direct
native seek; otherwise (positioned at or before the seek key) up to
`maxSteps` single `Next` advances are attempted, checking before each
whether the iterator has reached or passed the seek key, with a fallback to
exactly one native seek when the budget is exhausted short of the target. -/
theorem C4_performSeek_three_branches (maxSteps : Nat) (it : Iter)
    (k : List Nat) :
    (k = [] → PerformRocksDBSeekCounted maxSteps it k = (it.seekToFirst, 0, 0)) ∧
    (k ≠ [] → (it.valid = false ∨ cmpBytes it.curKey k = .gt) →
      PerformRocksDBSeekCounted maxSteps it k = (it.seek k, 0, 0)) ∧
    (k ≠ [] → it.valid = true → cmpBytes it.curKey k ≠ .gt →
      ∃ j, j ≤ maxSteps ∧
        (∀ m, m < j → (Iter.next^[m] it).valid = true ∧
          cmpBytes (Iter.next^[m] it).curKey k = .lt) ∧
        ((stopPred (Iter.next^[j] it) k ∧
            PerformRocksDBSeekCounted maxSteps it k = (Iter.next^[j] it, j, 0)) ∨
          (j = maxSteps ∧ ¬ stopPred (Iter.next^[j] it) k ∧
            PerformRocksDBSeekCounted maxSteps it k =
              ((Iter.next^[j] it).seek k, j, 1)))) := by
  refine ⟨?_, ?_, ?_⟩
  · intro hk
    subst hk
    rfl
  · intro hk hcond
    unfold PerformRocksDBSeekCounted
    rw [if_neg (by simpa using hk), if_pos hcond]
  · intro hk hvalid hcmp
    have hrw : PerformRocksDBSeekCounted maxSteps it k =
        seekStepLoop k maxSteps it := by
      unfold PerformRocksDBSeekCounted
      rw [if_neg (by simpa using hk),
        if_neg (by rw [not_or]; exact ⟨by simp [hvalid], hcmp⟩)]
    rw [hrw]
    exact seekStepLoop_spec k maxSteps it

/-- The iterator of the C4 counterexample: positioned on key `[0]`, with the
seek key `[5]` present further on. -/
def c4Iter : Iter := ⟨[([0], ⟨none, .data 0⟩), ([5], ⟨none, .data 1⟩)], 0⟩

/-- Claim C4, counterexample to the claim as stated.  The claim's second
branch says: if the iterator is invalid *or currently positioned at or
before* `seek_key`, a native seek is issued directly.  Here the iterator is
valid and positioned at `[0]`, at-or-before the seek key `[5]` — yet the code
takes the step path: its `next_count` is 1 (one `Next` was performed) and its
`seek_count` is 0, and the execution is not the direct-seek execution
`(it.seek k, 0, 0)` the claim prescribes. -/
theorem C4_counterexample :
    c4Iter.valid = true ∧ cmpBytes c4Iter.curKey [5] ≠ .gt ∧
    (PerformRocksDBSeekCounted 8 c4Iter [5]).2.1 = 1 ∧
    (PerformRocksDBSeekCounted 8 c4Iter [5]).2.2 = 0 ∧
    PerformRocksDBSeekCounted 8 c4Iter [5] ≠ (c4Iter.seek [5], 0, 0) := by
  decide

theorem C4_performSeek_three_branches_witness :
    (([5] : List Nat) ≠ []) ∧
    ((⟨[([0], ⟨none, .data 0⟩)], 3⟩ : Iter).valid = false ∨
      cmpBytes (⟨[([0], ⟨none, .data 0⟩)], 3⟩ : Iter).curKey [5] = .gt) ∧
    PerformRocksDBSeekCounted 8 ⟨[([0], ⟨none, .data 0⟩)], 3⟩ [5] =
      ((⟨[([0], ⟨none, .data 0⟩)], 3⟩ : Iter).seek [5], 0, 0) :=
  ⟨by decide, by decide,
    (C4_performSeek_three_branches 8 ⟨[([0], ⟨none, .data 0⟩)], 3⟩ [5]).2.1
      (by decide) (by decide)⟩

theorem lt_lowerBound_of_cur_lt {entries : List DbEntry} {k : List Nat}
    {p : Nat} (hs : EntriesSorted entries) (hp : p < entries.length)
    (hcur : cmpBytes (entries.getD p ([], default)).1 k = .lt) :
    p < lowerBound entries k := by
  by_contra hle
  push_neg at hle
  rcases Nat.lt_or_ge (lowerBound entries k) p with hlt | hge
  · have hat := lowerBound_spec_at (by omega :
      lowerBound entries k < entries.length)
    have hpair :
        cmpBytes ((entries.getD (lowerBound entries k) ([], default)).1)
          ((entries.getD p ([], default)).1) = .lt :=
      pairwise_getD hs hlt hp _
    exact hat (cmpBytes_lt_trans hpair hcur)
  · have heq : lowerBound entries k = p := by omega
    have hat := lowerBound_spec_at (by omega :
      lowerBound entries k < entries.length)
    rw [heq] at hat
    exact hat hcur

/-- Claim C7: `SeekForward` never moves the iterator backward: when the
iterator is valid at a key at or after the target (or is invalid) the call
is a no-op leaving the iterator unchanged; over a sorted keyspace the
resulting position is never earlier than the starting position; and any call
that changes the iterator state was issued with the iterator valid and its
current key strictly before the target. -/
theorem C7_seekForward_monotone (target : List Nat) (it : Iter)
    (hs : EntriesSorted it.entries) :
    ((it.valid = false ∨ cmpBytes it.curKey target ≠ .lt) →
      SeekForward target it = it) ∧
    it.pos ≤ (SeekForward target it).pos ∧
    (SeekForward target it ≠ it →
      it.valid = true ∧ cmpBytes it.curKey target = .lt) := by
  by_cases hcond : it.valid = false ∨ cmpBytes it.curKey target ≠ .lt
  · have hid : SeekForward target it = it := by
      unfold SeekForward
      rw [if_pos hcond]
    exact ⟨fun _ => hid, by rw [hid], fun hne => absurd hid hne⟩
  · rw [not_or, not_not] at hcond
    obtain ⟨hvalid, hcmp⟩ := hcond
    have hv : it.valid = true := by
      revert hvalid
      cases it.valid <;> simp
    have hseek : SeekForward target it =
        PerformRocksDBSeek kMaxNextsToAvoidSeek it target := by
      unfold SeekForward
      rw [if_neg (by rw [not_or, not_not]; exact ⟨hvalid, hcmp⟩)]
    refine ⟨fun h => ?_, ?_, fun _ => ⟨hv, hcmp⟩⟩
    · rcases h with h | h
      · rw [hv] at h
        exact absurd h (by simp)
      · exact absurd hcmp h
    · rw [hseek, performSeek_eq_seek hs]
      obtain ⟨entries, p⟩ := it
      have hs' : EntriesSorted entries := hs
      have hp : p < entries.length := by
        unfold Iter.valid at hv
        simpa using hv
      have hcur : cmpBytes ((entries.getD p ([], default)).1) target = .lt :=
        hcmp
      have := lt_lowerBound_of_cur_lt hs' hp hcur
      show p ≤ lowerBound entries target
      omega

theorem C7_seekForward_monotone_witness :
    EntriesSorted [([0], ⟨none, .data 0⟩), ([5], ⟨none, .data 1⟩)] ∧
    (⟨[([0], ⟨none, .data 0⟩), ([5], ⟨none, .data 1⟩)], 0⟩ : Iter).pos ≤
      (SeekForward [5]
        ⟨[([0], ⟨none, .data 0⟩), ([5], ⟨none, .data 1⟩)], 0⟩).pos :=
  ⟨by decide,
    (C7_seekForward_monotone [5]
      ⟨[([0], ⟨none, .data 0⟩), ([5], ⟨none, .data 1⟩)], 0⟩ (by decide)).2.1⟩

/-- Claim C10: `SeekForward` on an invalid (exhausted) iterator performs no
seek and leaves the iterator unchanged (hence still invalid), for every
target key and keyspace — even when keys at or after the target exist. -/
theorem C10_seekForward_invalid_noop (target : List Nat) (it : Iter)
    (h : it.valid = false) : SeekForward target it = it := by
  unfold SeekForward
  rw [if_pos (Or.inl h)]

theorem C10_seekForward_invalid_noop_witness :
    (⟨[([7], ⟨none, .data 1⟩)], 1⟩ : Iter).valid = false ∧
    cmpBytes [7] [5] = .gt ∧
    SeekForward [5] ⟨[([7], ⟨none, .data 1⟩)], 1⟩ =
      ⟨[([7], ⟨none, .data 1⟩)], 1⟩ :=
  ⟨by decide, by decide,
    C10_seekForward_invalid_noop [5] ⟨[([7], ⟨none, .data 1⟩)], 1⟩ (by decide)⟩

/-- Claim C9: for every well-formed seek key whose encoding fully decodes as
a SubDocKey carrying a DocHybridTime, the debug-build validation fires
exactly when the trailing timestamp is neither the `kMin` sentinel nor has
write id `kMaxWriteId`; and in every build the validation never repositions
the iterator or alters the seek: the debug build performs exactly the
optimized build's `PerformRocksDBSeek` (which contains no check at all) —
the invariant is flagged, never corrected. -/
theorem C9_debug_validation {k : SubDocKey} {dht : DocHybridTime}
    (hwf : k.WF) (hht : k.docHt = some dht) :
    (seekKeyValidationFires k.encode = true ↔
      (dht.writeId ≠ kMaxWriteId ∧ dht ≠ DocHybridTime.kMin)) ∧
    (∀ maxSteps it, (PerformRocksDBSeekDebug maxSteps it k.encode).2 =
      PerformRocksDBSeek maxSteps it k.encode) := by
  constructor
  · have hwfT : dht.WF := by
      obtain ⟨h1, h2, h3⟩ := hwf
      rw [hht] at h3
      exact h3
    have hdec := decodeDHT_encode hht hwfT
    have hfull := fullyDecode_encode hwf false (Or.inl rfl)
    unfold seekKeyValidationFires
    simp only [hdec, hfull]
    by_cases hc : dht.writeId ≠ kMaxWriteId ∧ dht ≠ DocHybridTime.kMin
    · rw [if_pos hc]
      simp [hht, hc]
    · rw [if_neg hc]
      simp [hc]
  · intro maxSteps it
    rfl

theorem C9_debug_validation_witness :
    SubDocKey.WF ⟨[1], [2], some ⟨7, 3⟩⟩ ∧
    (⟨[1], [2], some ⟨7, 3⟩⟩ : SubDocKey).docHt = some ⟨7, 3⟩ ∧
    (seekKeyValidationFires (SubDocKey.encode ⟨[1], [2], some ⟨7, 3⟩⟩) = true ↔
      ((⟨7, 3⟩ : DocHybridTime).writeId ≠ kMaxWriteId ∧
        (⟨7, 3⟩ : DocHybridTime) ≠ DocHybridTime.kMin)) :=
  ⟨by decide, rfl, (C9_debug_validation (by decide) rfl).1⟩

theorem mem_iff_getD {l : List Nat} {x : Nat} :
    x ∈ l ↔ ∃ j, j < l.length ∧ l.getD j 0 = x := by
  induction l with
  | nil => simp
  | cons e rest ih =>
    simp only [List.mem_cons, List.length_cons]
    constructor
    · rintro (rfl | hx)
      · exact ⟨0, by omega, rfl⟩
      · obtain ⟨j, hj, hg⟩ := ih.1 hx
        exact ⟨j + 1, by omega, by simpa using hg⟩
    · rintro ⟨j, hj, hg⟩
      rcases j with _ | j'
      · exact Or.inl hg.symm
      · exact Or.inr (ih.2 ⟨j', by omega, by simpa using hg⟩)

theorem sAALoop_spec (elems : List Nat) (target : Nat)
    (hs : List.Pairwise (· < ·) elems) :
    ∀ (n left right : Nat), right - left = n → left ≤ right →
      right ≤ elems.length →
      (∀ i, i < left → elems.getD i 0 < target) →
      (∀ i, right ≤ i → i < elems.length → target < elems.getD i 0) →
      ((∀ i, i < (sAALoop elems target left right).1 →
          elems.getD i 0 < target) ∧
        (sAALoop elems target left right).1 ≤ elems.length ∧
        ((sAALoop elems target left right).1 < elems.length →
          target ≤ elems.getD (sAALoop elems target left right).1 0) ∧
        ((sAALoop elems target left right).2 = true ↔
          ∃ j, left ≤ j ∧ j < right ∧ elems.getD j 0 = target)) := by
  intro n
  induction n using Nat.strong_induction_on with
  | _ n ih =>
    intro left right hn hlr hrlen hleft hright
    rw [sAALoop]
    by_cases h1 : left < right
    · rw [dif_pos h1]
      have hmidlt : (left + right) / 2 < right := by omega
      have hmidge : left ≤ (left + right) / 2 := by omega
      have hmidlen : (left + right) / 2 < elems.length := by omega
      by_cases h2 : elems.getD ((left + right) / 2) 0 < target
      · rw [if_pos h2]
        have hrec := ih (right - ((left + right) / 2 + 1)) (by omega)
          ((left + right) / 2 + 1) right rfl (by omega) hrlen
          (by
            intro i hi
            rcases Nat.lt_or_ge i ((left + right) / 2) with hilt | hige
            · have := pairwise_getD hs hilt hmidlen 0
              omega
            · have heq : i = (left + right) / 2 := by omega
              subst heq
              exact h2)
          hright
        refine ⟨hrec.1, hrec.2.1, hrec.2.2.1, ?_⟩
        rw [hrec.2.2.2]
        constructor
        · rintro ⟨j, hj1, hj2, hj3⟩
          exact ⟨j, by omega, hj2, hj3⟩
        · rintro ⟨j, hj1, hj2, hj3⟩
          refine ⟨j, ?_, hj2, hj3⟩
          by_contra hjl
          push_neg at hjl
          rcases Nat.lt_or_ge j ((left + right) / 2) with hjlt | hjge
          · have := pairwise_getD hs hjlt hmidlen 0
            omega
          · have heq : j = (left + right) / 2 := by omega
            subst heq
            omega
      · rw [if_neg h2]
        by_cases h3 : target < elems.getD ((left + right) / 2) 0
        · rw [if_pos h3]
          have hrec := ih ((left + right) / 2 - left) (by omega)
            left ((left + right) / 2) rfl (by omega) (by omega) hleft
            (by
              intro i hi hilen
              rcases Nat.lt_or_ge ((left + right) / 2) i with hgt | hge
              · have := pairwise_getD hs hgt hilen 0
                omega
              · have heq : i = (left + right) / 2 := by omega
                subst heq
                exact h3)
          refine ⟨hrec.1, hrec.2.1, hrec.2.2.1, ?_⟩
          rw [hrec.2.2.2]
          constructor
          · rintro ⟨j, hj1, hj2, hj3⟩
            exact ⟨j, hj1, by omega, hj3⟩
          · rintro ⟨j, hj1, hj2, hj3⟩
            refine ⟨j, hj1, ?_, hj3⟩
            by_contra hjr
            push_neg at hjr
            rcases Nat.lt_or_ge ((left + right) / 2) j with hgt | hge
            · have hjlen : j < elems.length := by omega
              have := pairwise_getD hs hgt hjlen 0
              omega
            · have heq : j = (left + right) / 2 := by omega
              subst heq
              omega
        · rw [if_neg h3]
          have hmid : elems.getD ((left + right) / 2) 0 = target := by omega
          refine ⟨?_, ?_, ?_, ?_⟩
          · show ∀ i, i < (left + right) / 2 → elems.getD i 0 < target
            intro i hi
            have := pairwise_getD hs hi hmidlen 0
            omega
          · show (left + right) / 2 ≤ elems.length
            omega
          · show (left + right) / 2 < elems.length →
              target ≤ elems.getD ((left + right) / 2) 0
            intro _
            omega
          · show (true = true) ↔ ∃ j, left ≤ j ∧ j < right ∧
                elems.getD j 0 = target
            constructor
            · intro _
              exact ⟨(left + right) / 2, hmidge, hmidlt, hmid⟩
            · intro _
              rfl
    · rw [dif_neg h1]
      have hlreq : left = right := by omega
      refine ⟨?_, ?_, ?_, ?_⟩
      · show ∀ i, i < left → elems.getD i 0 < target
        exact hleft
      · show left ≤ elems.length
        omega
      · show left < elems.length → target ≤ elems.getD left 0
        intro hlen
        have := hright left (by omega) hlen
        omega
      · show (false = true) ↔ ∃ j, left ≤ j ∧ j < right ∧
            elems.getD j 0 = target
        constructor
        · intro hf
          exact absurd hf (by simp)
        · rintro ⟨j, hj1, hj2, _⟩
          omega

/-- Claim C8: `SeekAtOrAfterValue` returns `NotFound` exactly when the seek
target has no successor in the (strictly sorted) block — every stored element
is strictly below the target; otherwise it returns `OK`, positions the
decoder at the smallest index whose element is at or after the target, and
sets `exact_match` iff an element equal to the target is present.  `NotFound`
is one of the normal return values of the same total function, not a fault
path. -/
theorem C8_seekAtOrAfter (elems : List Nat) (target : Nat)
    (hs : List.Pairwise (· < ·) elems) :
    ((SeekAtOrAfterValue elems target).1 = .notFound ↔
      ∀ x ∈ elems, x < target) ∧
    ((SeekAtOrAfterValue elems target).1 = .ok →
      (SeekAtOrAfterValue elems target).2.1 < elems.length ∧
      target ≤ elems.getD (SeekAtOrAfterValue elems target).2.1 0 ∧
      (∀ i, i < (SeekAtOrAfterValue elems target).2.1 →
        elems.getD i 0 < target)) ∧
    ((SeekAtOrAfterValue elems target).2.2 = true ↔ target ∈ elems) := by
  obtain ⟨Ha, Hb, Hc, Hd⟩ := sAALoop_spec elems target hs elems.length 0
    elems.length rfl (by omega) (le_refl _) (fun i hi => by omega)
    (fun i h1 h2 => by omega)
  have hmem : (sAALoop elems target 0 elems.length).2 = true ↔
      target ∈ elems := by
    rw [Hd, mem_iff_getD]
    constructor
    · rintro ⟨j, _, hj2, hj3⟩
      exact ⟨j, hj2, hj3⟩
    · rintro ⟨j, hj1, hj2⟩
      exact ⟨j, by omega, hj1, hj2⟩
  have hout : SeekAtOrAfterValue elems target =
      if (sAALoop elems target 0 elems.length).2 then
        (.ok, (sAALoop elems target 0 elems.length).1, true)
      else if (sAALoop elems target 0 elems.length).1 = elems.length then
        (.notFound, (sAALoop elems target 0 elems.length).1, false)
      else (.ok, (sAALoop elems target 0 elems.length).1, false) := rfl
  by_cases hr2 : (sAALoop elems target 0 elems.length).2 = true
  · rw [hout, if_pos hr2]
    have hlt : (sAALoop elems target 0 elems.length).1 < elems.length := by
      obtain ⟨j, _, hj2, hj3⟩ := Hd.1 hr2
      by_contra hge
      push_neg at hge
      have hj : j < (sAALoop elems target 0 elems.length).1 := by omega
      have := Ha j hj
      omega
    refine ⟨?_, ?_, ?_⟩
    · constructor
      · intro h
        exact absurd h (by simp)
      · intro hall
        exact absurd (hall target (hmem.1 hr2)) (lt_irrefl target)
    · intro _
      exact ⟨hlt, Hc hlt, Ha⟩
    · constructor
      · intro _
        exact hmem.1 hr2
      · intro _
        rfl
  · rw [hout, if_neg hr2]
    by_cases hlen : (sAALoop elems target 0 elems.length).1 = elems.length
    · rw [if_pos hlen]
      refine ⟨?_, ?_, ?_⟩
      · constructor
        · intro _ x hx
          obtain ⟨j, hj1, hj2⟩ := mem_iff_getD.1 hx
          have := Ha j (by omega)
          omega
        · intro _
          rfl
      · intro h
        exact absurd h (by simp)
      · constructor
        · intro hf
          exact absurd hf (by simp)
        · intro hmm
          exact absurd (hmem.2 hmm) hr2
    · rw [if_neg hlen]
      have hlt : (sAALoop elems target 0 elems.length).1 < elems.length := by
        have := Hb
        omega
      refine ⟨?_, ?_, ?_⟩
      · constructor
        · intro h
          exact absurd h (by simp)
        · intro hall
          have h1 := Hc hlt
          have h2 := hall _ (getD_mem_of_lt hlt 0)
          omega
      · intro _
        exact ⟨hlt, Hc hlt, Ha⟩
      · constructor
        · intro hf
          exact absurd hf (by simp)
        · intro hmm
          exact absurd (hmem.2 hmm) hr2

theorem C8_seekAtOrAfter_witness :
    List.Pairwise (· < ·) [3, 5, 9] ∧
    ((SeekAtOrAfterValue [3, 5, 9] 10).1 = .notFound ↔
      ∀ x ∈ [3, 5, 9], x < 10) :=
  ⟨by decide, (C8_seekAtOrAfter [3, 5, 9] 10 (by decide)).1⟩

theorem Iter.seek_mk (entries : List DbEntry) (p : Nat) (k : List Nat) :
    Iter.seek ⟨entries, p⟩ k = ⟨entries, lowerBound entries k⟩ := rfl

theorem Iter.valid_mk (entries : List DbEntry) (p : Nat) :
    Iter.valid ⟨entries, p⟩ = decide (p < entries.length) := rfl

theorem Iter.curKey_mk (entries : List DbEntry) (p : Nat) :
    Iter.curKey ⟨entries, p⟩ = (entries.getD p ([], default)).1 := rfl

theorem Iter.curValue_mk (entries : List DbEntry) (p : Nat) :
    Iter.curValue ⟨entries, p⟩ = (entries.getD p ([], default)).2 := rfl

theorem seekToValidKvLoop_succ (searchKey : List Nat) (rt fuel : Nat)
    (it : Iter) (sk : List Nat) :
    seekToValidKvLoop searchKey rt (fuel + 1) it sk =
      (if (PerformRocksDBSeek kMaxNextsToAvoidSeek it sk).valid = true ∧
          startsWithB (PerformRocksDBSeek kMaxNextsToAvoidSeek it sk).curKey
            searchKey = true then
        match DecodeHybridTimeFromEndOfKey
            (PerformRocksDBSeek kMaxNextsToAvoidSeek it sk).curKey with
        | none => .error .corruption
        | some dht =>
          if dht.physical ≤ rt then
            .ok (some (PerformRocksDBSeek kMaxNextsToAvoidSeek it sk))
          else
            seekToValidKvLoop searchKey rt fuel
              (PerformRocksDBSeek kMaxNextsToAvoidSeek it sk)
              (ReplaceLastHybridTimeForSeek
                (PerformRocksDBSeek kMaxNextsToAvoidSeek it sk).curKey rt)
      else .ok none) := rfl

theorem seekLoop_no_fuel_exhaustion {entries : List DbEntry}
    {searchKey : List Nat} {rt : Nat} (hs : EntriesSorted entries) :
    ∀ (fuel p : Nat) (seekKey : List Nat),
      entries.length - lowerBound entries seekKey < fuel →
      seekToValidKvLoop searchKey rt fuel ⟨entries, p⟩ seekKey ≠
        .error .outOfFuel := by
  intro fuel
  induction fuel with
  | zero =>
    intro p seekKey hfuel
    omega
  | succ fuel ih =>
    intro p seekKey hfuel
    rw [seekToValidKvLoop_succ,
      @performSeek_eq_seek kMaxNextsToAvoidSeek ⟨entries, p⟩ seekKey hs,
      Iter.seek_mk, Iter.valid_mk, Iter.curKey_mk]
    by_cases hcond :
        decide (lowerBound entries seekKey < entries.length) = true ∧
        startsWithB ((entries.getD (lowerBound entries seekKey)
          ([], default)).1) searchKey = true
    · rw [if_pos hcond]
      rcases hdec : DecodeHybridTimeFromEndOfKey
          ((entries.getD (lowerBound entries seekKey) ([], default)).1)
        with _ | dht
      · simp
      · simp only []
        by_cases hle : dht.physical ≤ rt
        · rw [if_pos hle]
          simp
        · rw [if_neg hle]
          apply ih
          have hvalid : lowerBound entries seekKey < entries.length := by
            have := hcond.1
            simpa using this
          have hadv : cmpBytes
              ((entries.getD (lowerBound entries seekKey) ([], default)).1)
              (ReplaceLastHybridTimeForSeek
                ((entries.getD (lowerBound entries seekKey) ([], default)).1)
                rt) = .lt :=
            replaceLast_advance hdec (by omega)
          have hnext := lt_lowerBound_of_cur_lt hs hvalid hadv
          have hle2 := lowerBound_le_length entries seekKey
          omega
    · rw [if_neg hcond]
      simp

/-- Claim C5: the probe-and-reseek loop of `SeekToValidKvAtTs` terminates on
every finite sorted keyspace: a fuel of `entries.length + 1` engine seeks is
never exhausted, whatever the initial probe; and (second conjunct) on every
iteration that does not exit, the rewritten probe — the current key with its
trailing timestamp replaced by the read time via
`ReplaceLastHybridTimeForSeek` — is strictly larger in byte order than the
key just found, which is what drives the landing position strictly forward
each iteration. -/
theorem C5_seek_loop_terminates (entries : List DbEntry) (p0 : Nat)
    (searchKey seekKey : List Nat) (rt : Nat)
    (hs : EntriesSorted entries) :
    (seekToValidKvLoop searchKey rt (entries.length + 1) ⟨entries, p0⟩
        seekKey ≠ .error .outOfFuel) ∧
    (∀ key dht, DecodeHybridTimeFromEndOfKey key = some dht →
      rt < dht.physical →
      cmpBytes key (ReplaceLastHybridTimeForSeek key rt) = .lt) := by
  constructor
  · apply seekLoop_no_fuel_exhaustion hs
    have := lowerBound_le_length entries seekKey
    omega
  · intro key dht h1 h2
    exact replaceLast_advance h1 h2

theorem C5_seek_loop_terminates_witness :
    EntriesSorted [([0], ⟨none, .data 0⟩), ([5], ⟨none, .data 1⟩)] ∧
    seekToValidKvLoop [0] 3 3
        ⟨[([0], ⟨none, .data 0⟩), ([5], ⟨none, .data 1⟩)], 0⟩ [0] ≠
      .error .outOfFuel :=
  ⟨by decide,
    (C5_seek_loop_terminates [([0], ⟨none, .data 0⟩), ([5], ⟨none, .data 1⟩)]
      0 [0] [0] 3 (by decide)).1⟩

/-! ### The version keyspace of claims C1/C2 -/

theorem encode_some_eq (dk path : List Nat) (t : DocHybridTime) :
    SubDocKey.encode ⟨dk, path, some t⟩ =
      SubDocKey.encode ⟨dk, path, none⟩ ++ encItem (.time t) := by
  unfold SubDocKey.encode SubDocKey.items
  simp only []
  rw [encItems_append]
  have h1 : encItems [KeyItem.time t] = encItem (.time t) := by
    simp [encItems]
  rw [h1]
  simp [List.append_assoc]

theorem cmpComps_refl (l : List Nat) : cmpComps l l = .eq := by
  induction l with
  | nil => rfl
  | cons c cs ih =>
    show (natCmp c c).then (cmpComps cs cs) = .eq
    rw [natCmp_self, ih]
    rfl

theorem cmpItems_map_sub (m : List Nat) (xs ys : List KeyItem) :
    cmpItems (m.map .sub ++ xs) (m.map .sub ++ ys) = cmpItems xs ys := by
  induction m with
  | nil => rfl
  | cons c cs ih =>
    show (cmpItem (.sub c) (.sub c)).then
      (cmpItems (cs.map .sub ++ xs) (cs.map .sub ++ ys)) = _
    have hself : cmpItem (.sub c) (.sub c) = .eq := natCmp_self c
    rw [hself, ih]
    rfl

theorem cmp_same_prefix_time (dk path : List Nat) (t1 t2 : DocHybridTime)
    (hdk : ∀ c ∈ dk, c < 2 ^ 32) (hpath : ∀ c ∈ path, c < 2 ^ 32)
    (h1 : t1.WF) (h2 : t2.WF) :
    cmpBytes (SubDocKey.encode ⟨dk, path, some t1⟩)
      (SubDocKey.encode ⟨dk, path, some t2⟩) = cmpDHT t2 t1 := by
  rw [cmpBytes_encode ⟨hdk, hpath, h1⟩ ⟨hdk, hpath, h2⟩]
  unfold cmpSubDocKey SubDocKey.items
  simp only []
  rw [cmpComps_refl, eq_then_ord, cmpItems_map_sub]
  show (cmpItem (.time t1) (.time t2)).then Ordering.eq = _
  rw [then_eq_ord]
  rfl

theorem kMaxWriteId_lt : kMaxWriteId < 2 ^ 32 := by
  unfold kMaxWriteId
  omega

theorem kMaxWriteId_pos : 0 < kMaxWriteId := by
  unfold kMaxWriteId
  omega

theorem version_probe_cmp {dk path : List Nat} {t rt : Nat}
    (hdk : ∀ c ∈ dk, c < 2 ^ 32) (hpath : ∀ c ∈ path, c < 2 ^ 32)
    (ht : t < 2 ^ 64) (hrt : rt < 2 ^ 64) :
    cmpBytes (SubDocKey.encode ⟨dk, path, some ⟨t, 0⟩⟩)
        (SubDocKey.encode ⟨dk, path, some ⟨rt, kMaxWriteId⟩⟩) =
      if t ≤ rt then .gt else .lt := by
  rw [cmp_same_prefix_time dk path _ _ hdk hpath
    ⟨ht, by show (0 : Nat) < 2 ^ 32; omega⟩ ⟨hrt, kMaxWriteId_lt⟩]
  unfold cmpDHT
  by_cases hle : t ≤ rt
  · rw [if_pos hle]
    rcases Nat.lt_or_ge t rt with hlt | hge
    · rw [natCmp_eq_gt.2 hlt]
      rfl
    · have heq : rt = t := by omega
      subst heq
      rw [natCmp_self, eq_then_ord, natCmp_eq_gt.2 kMaxWriteId_pos]
  · rw [if_neg hle]
    have hlt : rt < t := by omega
    rw [natCmp_eq_lt.2 hlt]
    rfl

/-- A stored version of a document key: write time and raw value (the
versions in claims C1/C2 all carry write id 0). -/
abbrev Version := Nat × RawValue

/-- The keyspace entry of one version of `(dk, path)`. -/
def versionEntry (dk path : List Nat) (v : Version) : DbEntry :=
  (SubDocKey.encode ⟨dk, path, some ⟨v.1, 0⟩⟩, v.2)

/-- A keyspace holding the timestamped versions of one search key followed by
unrelated entries. -/
def versionKeyspace (dk path : List Nat) (versions : List Version)
    (rest : List DbEntry) : List DbEntry :=
  versions.map (versionEntry dk path) ++ rest

theorem getD_append_right' {α : Type} {l1 l2 : List α} {n : Nat}
    (h : l1.length ≤ n) (d : α) :
    (l1 ++ l2).getD n d = l2.getD (n - l1.length) d := by
  induction l1 generalizing n with
  | nil => simp
  | cons e r ih =>
    rcases n with _ | n'
    · simp at h
    · simp only [List.cons_append, List.getD_cons_succ, List.length_cons]
      rw [ih (by simpa using h)]
      congr 1
      omega

theorem land_found {dk path : List Nat} {versions : List Version}
    {rest : List DbEntry} {rt : Nat} {v : Version}
    (hdk : ∀ c ∈ dk, c < 2 ^ 32) (hpath : ∀ c ∈ path, c < 2 ^ 32)
    (hts : ∀ p ∈ versions, p.1 < 2 ^ 64) (hrt : rt < 2 ^ 64)
    (hfind : versions.find? (fun p => decide (p.1 ≤ rt)) = some v) :
    lowerBound (versionKeyspace dk path versions rest)
        (SubDocKey.encode ⟨dk, path, some ⟨rt, kMaxWriteId⟩⟩) <
      (versionKeyspace dk path versions rest).length ∧
    (versionKeyspace dk path versions rest).getD
        (lowerBound (versionKeyspace dk path versions rest)
          (SubDocKey.encode ⟨dk, path, some ⟨rt, kMaxWriteId⟩⟩)) ([], default) =
      versionEntry dk path v := by
  induction versions with
  | nil => simp at hfind
  | cons p vs ih =>
    have hentries : versionKeyspace dk path (p :: vs) rest =
        versionEntry dk path p :: versionKeyspace dk path vs rest := by
      unfold versionKeyspace
      simp
    by_cases hple : p.1 ≤ rt
    · have hv : v = p := by
        rw [List.find?_cons_of_pos _ (by simpa using hple)] at hfind
        injection hfind with h
        exact h.symm
      subst hv
      have hcmp : cmpBytes (versionEntry dk path v).1
          (SubDocKey.encode ⟨dk, path, some ⟨rt, kMaxWriteId⟩⟩) = .gt := by
        unfold versionEntry
        rw [version_probe_cmp hdk hpath (hts v (by simp)) hrt, if_pos hple]
      have hlb : lowerBound (versionKeyspace dk path (v :: vs) rest)
          (SubDocKey.encode ⟨dk, path, some ⟨rt, kMaxWriteId⟩⟩) = 0 := by
        rw [hentries]
        show (if cmpBytes (versionEntry dk path v).1 _ = .lt
          then _ + 1 else 0) = 0
        rw [if_neg (by rw [hcmp]; simp)]
      rw [hlb, hentries]
      exact ⟨by simp, by simp⟩
    · have hlt : rt < p.1 := by omega
      rw [List.find?_cons_of_neg _ (by simpa using hple)] at hfind
      have hcmp : cmpBytes (versionEntry dk path p).1
          (SubDocKey.encode ⟨dk, path, some ⟨rt, kMaxWriteId⟩⟩) = .lt := by
        unfold versionEntry
        rw [version_probe_cmp hdk hpath (hts p (by simp)) hrt,
          if_neg (by omega)]
      have hlb : lowerBound (versionKeyspace dk path (p :: vs) rest)
          (SubDocKey.encode ⟨dk, path, some ⟨rt, kMaxWriteId⟩⟩) =
          lowerBound (versionKeyspace dk path vs rest)
            (SubDocKey.encode ⟨dk, path, some ⟨rt, kMaxWriteId⟩⟩) + 1 := by
        rw [hentries]
        show (if cmpBytes (versionEntry dk path p).1 _ = .lt
          then _ + 1 else 0) = _
        rw [if_pos hcmp]
      obtain ⟨ih1, ih2⟩ := ih (fun q hq => hts q (by simp [hq])) hfind
      rw [hlb, hentries]
      constructor
      · simp only [List.length_cons]
        omega
      · simpa using ih2

theorem land_none {dk path : List Nat} {versions : List Version}
    {rest : List DbEntry} {rt : Nat}
    (hdk : ∀ c ∈ dk, c < 2 ^ 32) (hpath : ∀ c ∈ path, c < 2 ^ 32)
    (hts : ∀ p ∈ versions, p.1 < 2 ^ 64) (hrt : rt < 2 ^ 64)
    (hfind : versions.find? (fun p => decide (p.1 ≤ rt)) = none) :
    versions.length ≤ lowerBound (versionKeyspace dk path versions rest)
      (SubDocKey.encode ⟨dk, path, some ⟨rt, kMaxWriteId⟩⟩) := by
  induction versions with
  | nil => simp
  | cons p vs ih =>
    rw [List.find?_eq_none] at hfind
    have hplt : rt < p.1 := by
      have := hfind p (by simp)
      simpa using this
    have hentries : versionKeyspace dk path (p :: vs) rest =
        versionEntry dk path p :: versionKeyspace dk path vs rest := by
      unfold versionKeyspace
      simp
    have hcmp : cmpBytes (versionEntry dk path p).1
        (SubDocKey.encode ⟨dk, path, some ⟨rt, kMaxWriteId⟩⟩) = .lt := by
      unfold versionEntry
      rw [version_probe_cmp hdk hpath (hts p (by simp)) hrt,
        if_neg (by omega)]
    have hlb : lowerBound (versionKeyspace dk path (p :: vs) rest)
        (SubDocKey.encode ⟨dk, path, some ⟨rt, kMaxWriteId⟩⟩) =
        lowerBound (versionKeyspace dk path vs rest)
          (SubDocKey.encode ⟨dk, path, some ⟨rt, kMaxWriteId⟩⟩) + 1 := by
      rw [hentries]
      show (if cmpBytes (versionEntry dk path p).1 _ = .lt
        then _ + 1 else 0) = _
      rw [if_pos hcmp]
    rw [hlb]
    have := ih (fun q hq => hts q (by simp [hq]))
      (by
        rw [List.find?_eq_none]
        intro x hx
        exact hfind x (by simp [hx]))
    simp only [List.length_cons]
    omega

theorem append_getD_mem_right {α : Type} {l1 l2 : List α} {n : Nat}
    (h1 : l1.length ≤ n) (h2 : n < (l1 ++ l2).length) (d : α) :
    (l1 ++ l2).getD n d ∈ l2 := by
  rw [getD_append_right' h1]
  apply getD_mem_of_lt
  simp only [List.length_append] at h2
  omega

theorem seekLoop_versionKeyspace {dk path : List Nat}
    {versions : List Version} {rest : List DbEntry} {rt p0 fuel : Nat}
    (hdk : ∀ c ∈ dk, c < 2 ^ 32) (hpath : ∀ c ∈ path, c < 2 ^ 32)
    (hts : ∀ p ∈ versions, p.1 < 2 ^ 64) (hrt : rt < 2 ^ 64)
    (hs : EntriesSorted (versionKeyspace dk path versions rest))
    (hrest : ∀ e ∈ rest,
      startsWithB e.1 (SubDocKey.encode ⟨dk, path, none⟩) = false) :
    seekToValidKvLoop (SubDocKey.encode ⟨dk, path, none⟩) rt (fuel + 1)
        ⟨versionKeyspace dk path versions rest, p0⟩
        (SubDocKey.encode ⟨dk, path, some ⟨rt, kMaxWriteId⟩⟩) =
      (match versions.find? (fun p => decide (p.1 ≤ rt)) with
        | some _ => .ok (some ⟨versionKeyspace dk path versions rest,
            lowerBound (versionKeyspace dk path versions rest)
              (SubDocKey.encode ⟨dk, path, some ⟨rt, kMaxWriteId⟩⟩)⟩)
        | none => .ok none) := by
  rw [seekToValidKvLoop_succ,
    @performSeek_eq_seek kMaxNextsToAvoidSeek
      ⟨versionKeyspace dk path versions rest, p0⟩
      (SubDocKey.encode ⟨dk, path, some ⟨rt, kMaxWriteId⟩⟩) hs,
    Iter.seek_mk, Iter.valid_mk, Iter.curKey_mk]
  rcases hfind : versions.find? (fun p => decide (p.1 ≤ rt)) with _ | v
  · simp only [hfind]
    have hge := @land_none dk path versions rest rt hdk hpath hts hrt hfind
    have hle := lowerBound_le_length (versionKeyspace dk path versions rest)
      (SubDocKey.encode ⟨dk, path, some ⟨rt, kMaxWriteId⟩⟩)
    rcases Nat.lt_or_ge
        (lowerBound (versionKeyspace dk path versions rest)
          (SubDocKey.encode ⟨dk, path, some ⟨rt, kMaxWriteId⟩⟩))
        ((versionKeyspace dk path versions rest).length) with hlt | hge2
    · have hmem2 : (versionKeyspace dk path versions rest).getD
          (lowerBound (versionKeyspace dk path versions rest)
            (SubDocKey.encode ⟨dk, path, some ⟨rt, kMaxWriteId⟩⟩))
          ([], default) ∈ rest := by
        show (versions.map (versionEntry dk path) ++ rest).getD
          (lowerBound (versionKeyspace dk path versions rest)
            (SubDocKey.encode ⟨dk, path, some ⟨rt, kMaxWriteId⟩⟩))
          ([], default) ∈ rest
        apply append_getD_mem_right (by rw [List.length_map]; exact hge)
        exact hlt
      have hno : ¬ (decide
          (lowerBound (versionKeyspace dk path versions rest)
            (SubDocKey.encode ⟨dk, path, some ⟨rt, kMaxWriteId⟩⟩) <
          (versionKeyspace dk path versions rest).length) = true ∧
          startsWithB (((versionKeyspace dk path versions rest).getD
            (lowerBound (versionKeyspace dk path versions rest)
              (SubDocKey.encode ⟨dk, path, some ⟨rt, kMaxWriteId⟩⟩))
            ([], default)).1) (SubDocKey.encode ⟨dk, path, none⟩) = true) := by
        rintro ⟨_, h2⟩
        rw [hrest _ hmem2] at h2
        exact Bool.false_ne_true h2
      rw [if_neg hno]
    · have hno : ¬ (decide
          (lowerBound (versionKeyspace dk path versions rest)
            (SubDocKey.encode ⟨dk, path, some ⟨rt, kMaxWriteId⟩⟩) <
          (versionKeyspace dk path versions rest).length) = true ∧
          startsWithB (((versionKeyspace dk path versions rest).getD
            (lowerBound (versionKeyspace dk path versions rest)
              (SubDocKey.encode ⟨dk, path, some ⟨rt, kMaxWriteId⟩⟩))
            ([], default)).1) (SubDocKey.encode ⟨dk, path, none⟩) = true) := by
        rintro ⟨h1, _⟩
        have := of_decide_eq_true h1
        omega
      rw [if_neg hno]
  · simp only [hfind]
    obtain ⟨hlt, hgetD⟩ := land_found hdk hpath hts hrt hfind
    have hv_mem := List.mem_of_find?_eq_some hfind
    have hvle : v.1 ≤ rt := by
      have := List.find?_some hfind
      simpa using this
    rw [if_pos ⟨decide_eq_true hlt, by
      rw [hgetD]
      show startsWithB (SubDocKey.encode ⟨dk, path, some ⟨v.1, 0⟩⟩)
        (SubDocKey.encode ⟨dk, path, none⟩) = true
      rw [encode_some_eq]
      exact startsWithB_append _ _⟩]
    have hdec : DecodeHybridTimeFromEndOfKey
        (((versionKeyspace dk path versions rest).getD
          (lowerBound (versionKeyspace dk path versions rest)
            (SubDocKey.encode ⟨dk, path, some ⟨rt, kMaxWriteId⟩⟩))
          ([], default)).1) = some ⟨v.1, 0⟩ := by
      rw [hgetD]
      show DecodeHybridTimeFromEndOfKey
        (SubDocKey.encode ⟨dk, path, some ⟨v.1, 0⟩⟩) = some ⟨v.1, 0⟩
      exact decodeDHT_encode rfl
        ⟨hts v hv_mem, by show (0 : Nat) < 2 ^ 32; omega⟩
    simp only [hdec]
    rw [if_pos (show DocHybridTime.physical ⟨v.1, 0⟩ ≤ rt from hvle)]

theorem find?_desc_max {versions : List Version} {rt : Nat} {v : Version}
    (hdesc : List.Pairwise (fun a b => b.1 < a.1) versions)
    (hfind : versions.find? (fun p => decide (p.1 ≤ rt)) = some v) :
    v.1 ≤ rt ∧ ∀ q ∈ versions, q.1 ≤ rt → q.1 ≤ v.1 := by
  induction versions with
  | nil => simp at hfind
  | cons p vs ih =>
    obtain ⟨hp, hvs⟩ := List.pairwise_cons.1 hdesc
    by_cases hple : p.1 ≤ rt
    · rw [List.find?_cons_of_pos _ (by simpa using hple)] at hfind
      injection hfind with h
      subst h
      refine ⟨hple, ?_⟩
      intro q hq _
      rcases List.mem_cons.1 hq with rfl | hq'
      · exact le_refl _
      · exact le_of_lt (hp q hq')
    · rw [List.find?_cons_of_neg _ (by simpa using hple)] at hfind
      obtain ⟨h1, h2⟩ := ih hvs hfind
      refine ⟨h1, ?_⟩
      intro q hq hqle
      rcases List.mem_cons.1 hq with rfl | hq'
      · omega
      · exact h2 q hq' hqle

/-- Claim C1: over a keyspace holding the timestamped versions of a search
key (plus unrelated later entries, none of which extend the search key),
with no TTLs, `SeekToValidKvAtTs` finds the version with the largest
DocHybridTime at or before the read time: the first version at or below
`rt` in the descending version list (first conjunct, with
`.ok .notFound` — OK status, `is_found = false` — when the iterator lands
past the versions or off the keyspace).  The second conjunct states that
this found version really is the largest one at or before `rt`, and the
third that not-found happens exactly when every version is newer than
`rt`. -/
theorem C1_seek_finds_latest_version (dk path : List Nat)
    (versions : List Version) (rest : List DbEntry) (rt p0 fuel : Nat)
    (hdk : ∀ c ∈ dk, c < 2 ^ 32) (hpath : ∀ c ∈ path, c < 2 ^ 32)
    (hts : ∀ p ∈ versions, p.1 < 2 ^ 64) (hrt : rt < 2 ^ 64)
    (hs : EntriesSorted (versionKeyspace dk path versions rest))
    (hdesc : List.Pairwise (fun a b => b.1 < a.1) versions)
    (hrest : ∀ e ∈ rest,
      startsWithB e.1 (SubDocKey.encode ⟨dk, path, none⟩) = false)
    (httl : ∀ p ∈ versions, p.2.ttl = none) :
    (SeekToValidKvAtTs ⟨versionKeyspace dk path versions rest, p0⟩
        (SubDocKey.encode ⟨dk, path, none⟩) rt (fuel + 1) =
      match versions.find? (fun p => decide (p.1 ≤ rt)) with
      | some v => .ok (.found ⟨dk, path, some ⟨v.1, 0⟩⟩ v.2.payload)
      | none => .ok .notFound) ∧
    (∀ v, versions.find? (fun p => decide (p.1 ≤ rt)) = some v →
      v.1 ≤ rt ∧ ∀ q ∈ versions, q.1 ≤ rt → q.1 ≤ v.1) ∧
    (versions.find? (fun p => decide (p.1 ≤ rt)) = none ↔
      ∀ q ∈ versions, rt < q.1) := by
  refine ⟨?_, fun v hv => find?_desc_max hdesc hv, ?_⟩
  · unfold SeekToValidKvAtTs
    rw [show SubDocKey.encode ⟨dk, path, none⟩ ++
        encItem (.time ⟨rt, kMaxWriteId⟩) =
        SubDocKey.encode ⟨dk, path, some ⟨rt, kMaxWriteId⟩⟩ from
      (encode_some_eq dk path ⟨rt, kMaxWriteId⟩).symm]
    rw [seekLoop_versionKeyspace hdk hpath hts hrt hs hrest]
    rcases hfind : versions.find? (fun p => decide (p.1 ≤ rt)) with _ | v
    · simp only [hfind]
    · simp only [hfind]
      obtain ⟨hlt, hgetD⟩ := land_found hdk hpath hts hrt hfind
      have hv_mem := List.mem_of_find?_eq_some hfind
      rw [Iter.curKey_mk, Iter.curValue_mk, hgetD]
      simp only [versionEntry]
      rw [@fullyDecode_encode ⟨dk, path, some ⟨v.1, 0⟩⟩
        ⟨hdk, hpath, ⟨hts v hv_mem, by show (0 : Nat) < 2 ^ 32; omega⟩⟩
        true (Or.inr rfl)]
      rw [httl v hv_mem]
  · rw [List.find?_eq_none]
    constructor
    · intro h q hq
      have h2 := h q hq
      simp only [decide_eq_true_eq] at h2
      omega
    · intro h q hq
      simp only [decide_eq_true_eq]
      have := h q hq
      omega

/-- Claim C2: for a value found by `SeekToValidKvAtTs` that carries a TTL:
when the read time is strictly past the expiry instant
(`write_time + ttl`), the function returns a synthesized tombstone instead
of the stored payload and reports the found key at the expiry instant
(with the `kMaxWriteId` read-path write id) rather than the original write
time; when the read time is at or before the expiry instant, the stored
payload is returned unchanged under the original write time. -/
theorem C2_ttl_expiry_tombstone (dk path : List Nat)
    (versions : List Version) (rest : List DbEntry) (rt p0 fuel : Nat)
    (v : Version) (ttl : Nat)
    (hdk : ∀ c ∈ dk, c < 2 ^ 32) (hpath : ∀ c ∈ path, c < 2 ^ 32)
    (hts : ∀ p ∈ versions, p.1 < 2 ^ 64) (hrt : rt < 2 ^ 64)
    (hs : EntriesSorted (versionKeyspace dk path versions rest))
    (hrest : ∀ e ∈ rest,
      startsWithB e.1 (SubDocKey.encode ⟨dk, path, none⟩) = false)
    (hfind : versions.find? (fun p => decide (p.1 ≤ rt)) = some v)
    (httl : v.2.ttl = some ttl) :
    SeekToValidKvAtTs ⟨versionKeyspace dk path versions rest, p0⟩
        (SubDocKey.encode ⟨dk, path, none⟩) rt (fuel + 1) =
      (if v.1 + ttl < rt then
        .ok (.found ⟨dk, path, some ⟨v.1 + ttl, kMaxWriteId⟩⟩ .tombstone)
      else .ok (.found ⟨dk, path, some ⟨v.1, 0⟩⟩ v.2.payload)) := by
  unfold SeekToValidKvAtTs
  rw [show SubDocKey.encode ⟨dk, path, none⟩ ++
      encItem (.time ⟨rt, kMaxWriteId⟩) =
      SubDocKey.encode ⟨dk, path, some ⟨rt, kMaxWriteId⟩⟩ from
    (encode_some_eq dk path ⟨rt, kMaxWriteId⟩).symm]
  rw [seekLoop_versionKeyspace hdk hpath hts hrt hs hrest]
  simp only [hfind]
  obtain ⟨hlt, hgetD⟩ := land_found hdk hpath hts hrt hfind
  have hv_mem := List.mem_of_find?_eq_some hfind
  rw [Iter.curKey_mk, Iter.curValue_mk, hgetD]
  simp only [versionEntry]
  rw [@fullyDecode_encode ⟨dk, path, some ⟨v.1, 0⟩⟩
    ⟨hdk, hpath, ⟨hts v hv_mem, by show (0 : Nat) < 2 ^ 32; omega⟩⟩
    true (Or.inr rfl)]
  rw [httl]
  rfl

/-- The version list of the C1 witness: versions at times 20, 10, 5. -/
def c1Versions : List Version :=
  [(20, ⟨none, .data 203⟩), (10, ⟨none, .data 103⟩), (5, ⟨none, .data 53⟩)]

theorem C1_seek_finds_latest_version_witness :
    EntriesSorted (versionKeyspace [1] [2] c1Versions []) ∧
    List.Pairwise (fun a b => b.1 < a.1) c1Versions ∧
    SeekToValidKvAtTs ⟨versionKeyspace [1] [2] c1Versions [], 0⟩
        (SubDocKey.encode ⟨[1], [2], none⟩) 12 1 =
      .ok (.found ⟨[1], [2], some ⟨10, 0⟩⟩ (.data 103)) :=
  ⟨by decide, by decide,
    ((C1_seek_finds_latest_version [1] [2] c1Versions [] 12 0 0
        (by decide) (by decide) (by decide) (by decide) (by decide)
        (by decide) (by decide) (by decide)).1).trans (by decide)⟩

/-- The version list of the C2 witness: one version written at time 100 with
TTL 50. -/
def c2Versions : List Version := [(100, ⟨some 50, .data 7⟩)]

theorem C2_ttl_expiry_tombstone_witness :
    EntriesSorted (versionKeyspace [1] [2] c2Versions []) ∧
    c2Versions.find? (fun p => decide (p.1 ≤ 151)) =
      some (100, ⟨some 50, .data 7⟩) ∧
    SeekToValidKvAtTs ⟨versionKeyspace [1] [2] c2Versions [], 0⟩
        (SubDocKey.encode ⟨[1], [2], none⟩) 151 1 =
      .ok (.found ⟨[1], [2], some ⟨150, kMaxWriteId⟩⟩ .tombstone) :=
  ⟨by decide, by decide,
    (C2_ttl_expiry_tombstone [1] [2] c2Versions [] 151 0 0
        (100, ⟨some 50, .data 7⟩) 50 (by decide) (by decide) (by decide)
        (by decide) (by decide) (by decide) (by decide) (by decide)).trans
      (by decide)⟩
